import Mathlib

/-!
Verification development for the FourierCircles repository core:
the arbitrary-length discrete Fourier transform engine (`src/fft.h`),
the epicycle decomposer (`src/FourierCircles.h`) and the arc-length
curve resampler (`src/svg.h`).

2D float vectors (`geometry::Vec2f`) are modelled as complex numbers
(`x` = real part, `y` = imaginary part), and single-precision floating
point arithmetic is idealized as exact real arithmetic.
-/

open Finset Complex

/-! ## Complex helpers, translated from `fft.h` namespace `detail` -/

/-- `detail::cadd` from `src/fft.h`: componentwise addition. -/
def cadd (a b : ℂ) : ℂ := ⟨a.re + b.re, a.im + b.im⟩

/-- `detail::csub` from `src/fft.h`: componentwise subtraction. -/
def csub (a b : ℂ) : ℂ := ⟨a.re - b.re, a.im - b.im⟩

/-- `detail::cmul` from `src/fft.h`: complex multiplication written on components. -/
def cmul (a b : ℂ) : ℂ := ⟨a.re * b.re - a.im * b.im, a.re * b.im + a.im * b.re⟩

/-- `detail::cconj` from `src/fft.h`. -/
def cconj (a : ℂ) : ℂ := ⟨a.re, -a.im⟩

/-- `detail::cscale` from `src/fft.h`: scaling by a real scalar. -/
def cscale (a : ℂ) (s : ℝ) : ℂ := ⟨a.re * s, a.im * s⟩

/-! ## The unit-circle exponential `cexpI` -/

/-- `cexpI θ = exp (i θ)`, the unit complex number with angle `θ`. -/
noncomputable def cexpI (θ : ℝ) : ℂ := Complex.exp (θ * Complex.I)

/-! ## The direct O(N^2) DFT reference

`dft sign n x k = sum_{t<n} x t * exp(i * sign * 2 pi * k * t / n)`.
The radix-2 code of `fft.h` uses `sign = -1` for `Forward` (twiddle
`exp(sign*2*pi*i/len)`, line 132/136), which is also the convention of the
spec's section 4.1; this is the "direct O(N^2) DFT reference" of spec
section 8. -/

noncomputable def dft (sign : ℝ) (n : ℕ) (x : ℕ → ℂ) (k : ℕ) : ℂ :=
  ∑ t ∈ Finset.range n, x t * cexpI (sign * (2 * Real.pi) * k * t / n)

/-! ## Bit reversal

`revBits b x` reverses the low `b` bits of `x`; it is the specification of
the in-place bit-reversal permutation loop of `fft_radix2_inplace`
(`src/fft.h` lines 120-130). -/

def revBits : ℕ → ℕ → ℕ
  | 0, _ => 0
  | b + 1, x => 2 ^ b * (x % 2) + revBits b (x / 2)

/-! ## The bit-reversal permutation loop of `fft_radix2_inplace`

`brIncGo` is the inner `while (j & bit) { j ^= bit; bit >>= 1; } j |= bit;`
carry loop (`src/fft.h` lines 122-128); `brLoopAux` is the surrounding
`for (i = 1, j = 0; i < n; ++i)` loop with its conditional
`if (i < j) swap(a[i], a[j])` (lines 120-130), acting on an array modelled
as a function `ℕ → ℂ`. -/

def brIncGo (bit j : ℕ) : ℕ :=
  if j &&& bit ≠ 0 then brIncGo (bit / 2) (j ^^^ bit) else j ||| bit
termination_by bit
decreasing_by
  have hbit : bit ≠ 0 := by
    intro h
    subst h
    simp at *
  exact Nat.div_lt_self (Nat.pos_of_ne_zero hbit) (by norm_num)

/-- One array-element swap, `std::swap(a[i], a[j])`. -/
def swapF (g : ℕ → ℂ) (i j : ℕ) : ℕ → ℂ :=
  Function.update (Function.update g i (g j)) j (g i)

def brLoopAux (n : ℕ) : ℕ → ℕ → ℕ → (ℕ → ℂ) → (ℕ → ℂ)
  | 0, _, _, g => g
  | f + 1, i, j, g =>
    let j' := brIncGo (n / 2) j
    brLoopAux n f (i + 1) j' (if i < j' then swapF g i j' else g)

/-- The bit-reversal pass of `fft_radix2_inplace` (`src/fft.h` lines 120-130). -/
def bitrevPass (n : ℕ) (g : ℕ → ℂ) : ℕ → ℂ :=
  brLoopAux n (n - 1) 1 0 g

/-! ## The butterfly stages of `fft_radix2_inplace`

`butterflyInner` is the inner `for (j = 0; j < half; ++j)` loop
(`src/fft.h` lines 145-156), carrying the running twiddle `w`;
`blocksLoop` is the middle `for (i = 0; i < n; i += len)` loop
(lines 140-157); `stagePass` fixes the stage twiddle `(c0, s0)`
(lines 136-138); `lenLoop` is the outer `for (len = 2; len <= n; len <<= 1)`
loop (line 134). -/

def butterflyInner (t : ℂ) (base half : ℕ) : ℕ → ℕ → ℂ → (ℕ → ℂ) → (ℕ → ℂ)
  | 0, _, _, g => g
  | f + 1, j, w, g =>
    let u := g (base + j)
    let v := cmul (g (base + j + half)) w
    let g' := Function.update (Function.update g (base + j) (cadd u v))
      (base + j + half) (csub u v)
    butterflyInner t base half f (j + 1) (cmul w t) g'

def blocksLoop (t : ℂ) (len : ℕ) : ℕ → ℕ → (ℕ → ℂ) → (ℕ → ℂ)
  | 0, _, g => g
  | f + 1, i, g => blocksLoop t len f (i + len)
      (butterflyInner t i (len / 2) (len / 2) 0 ⟨1, 0⟩ g)

noncomputable def stagePass (n : ℕ) (sign : ℝ) (len : ℕ) (g : ℕ → ℂ) : ℕ → ℂ :=
  let ang : ℝ := sign * 2 * Real.pi / len
  blocksLoop ⟨Real.cos ang, Real.sin ang⟩ len (n / len) 0 g

noncomputable def lenLoop (n : ℕ) (sign : ℝ) (len : ℕ) (g : ℕ → ℂ) : ℕ → ℂ :=
  if h : 2 ≤ len ∧ len ≤ n then lenLoop n sign (len * 2) (stagePass n sign len g) else g
termination_by n + 1 - len
decreasing_by omega

/-- `FFTDirection` from `src/fft.h`. -/
inductive FFTDirection : Type
  | Forward : FFTDirection
  | Inverse : FFTDirection
deriving DecidableEq

/-- The stage twiddle sign of `fft_radix2_inplace`
(`const float sign = (dir == Forward) ? -1.0f : +1.0f;`, line 132). -/
def dsign : FFTDirection → ℝ
  | FFTDirection.Forward => -1
  | FFTDirection.Inverse => 1

/-- `fft_radix2_inplace` from `src/fft.h` (lines 112-165), acting on an array
modelled as a function `ℕ → ℂ` (entries at indices `≥ n` are irrelevant and
are read back only on `[0, n)`). -/
noncomputable def fft_radix2_inplace (n : ℕ) (dir : FFTDirection) (a : ℕ → ℂ) : ℕ → ℂ :=
  if n ≤ 1 then a
  else if dir = FFTDirection.Inverse then
    fun p => cscale (lenLoop n (dsign dir) 2 (bitrevPass n a) p) (1 / (n : ℝ))
  else lenLoop n (dsign dir) 2 (bitrevPass n a)

/-- Stage invariant value: after the stages up to block length `2^s`, the
block of length `2^s` containing position `p` holds the `2^s`-point DFT of
the input subsequence with stride `2^(b-s)` starting at the bit-reversed
block number. -/
noncomputable def stageVal (a : ℕ → ℂ) (sign : ℝ) (b s : ℕ) (p : ℕ) : ℂ :=
  ∑ t ∈ Finset.range (2 ^ s),
    a (t * 2 ^ (b - s) + revBits (b - s) (p / 2 ^ s)) *
      cexpI (sign * (2 * Real.pi) * ((p % 2 ^ s : ℕ) : ℝ) * t / 2 ^ s)

/-! ## `is_pow2`, `std::bit_ceil`, and the Bluestein machinery of `fft.h` -/

/-- `detail::is_pow2` from `src/fft.h`: `n != 0 && (n & (n - 1)) == 0`. -/
def is_pow2 (n : ℕ) : Bool := (n != 0) && ((n &&& (n - 1)) == 0)

/-- `std::bit_ceil`: the smallest power of two that is not less than the
argument (modelled through `Nat.clog`). -/
def bit_ceil (x : ℕ) : ℕ := 2 ^ Nat.clog 2 x

/-- The chirp sign of `precompute_bluestein`
(`const float s = (dir_ == Forward) ? +1.0f : -1.0f;`, `src/fft.h` line 180). -/
def bsign : FFTDirection → ℝ
  | FFTDirection.Forward => 1
  | FFTDirection.Inverse => -1

/-- `chirp_[k] = {cos ang, sin ang}` with `ang = s * PI * k * k / n`
(`precompute_bluestein`, `src/fft.h` lines 182-187). -/
noncomputable def chirpFun (dir : FFTDirection) (n : ℕ) (k : ℕ) : ℂ :=
  ⟨Real.cos (bsign dir * Real.pi * ((k * k : ℕ) : ℝ) / n),
   Real.sin (bsign dir * Real.pi * ((k * k : ℕ) : ℝ) / n)⟩

/-- The `B_` buffer filled by `precompute_bluestein` (`src/fft.h` lines
189-195): zero except `B_[k] = conj(chirp_[k])` for `k < n` and
`B_[m-k] = conj(chirp_[k])` for `0 < k < n`.  (The two index families are
disjoint at the call site, where `m ≥ 2n-1`.) -/
noncomputable def Bfun (dir : FFTDirection) (n m : ℕ) (l : ℕ) : ℂ :=
  if l < n then cconj (chirpFun dir n l)
  else if 1 ≤ m - l ∧ m - l < n then cconj (chirpFun dir n (m - l)) else 0

/-- `A_[k] = cmul(in[k], chirp_[k])` for `k < n`, zero-padded to `m`
(`fft_bluestein`, `src/fft.h` lines 203-205). -/
noncomputable def bluesteinA (dir : FFTDirection) (n : ℕ) (x : ℕ → ℂ) (k : ℕ) : ℂ :=
  if k < n then cmul (x k) (chirpFun dir n k) else 0

/-- `fft_bluestein` from `src/fft.h` (lines 198-224): forward FFTs of `A_`
and `B_`, pointwise product, inverse FFT, final chirp multiplication. -/
noncomputable def fft_bluestein (dir : FFTDirection) (n m : ℕ) (x : ℕ → ℂ) : ℕ → ℂ :=
  fun k =>
    cmul
      (fft_radix2_inplace m FFTDirection.Inverse
        (fun i =>
          cmul (fft_radix2_inplace m FFTDirection.Forward (bluesteinA dir n x) i)
            (fft_radix2_inplace m FFTDirection.Forward (Bfun dir n m) i)) k)
      (chirpFun dir n k)

/-! ## The `fft::FFT` engine object (`src/fft.h` lines 48-95) -/

/-- The persistent state of an `fft::FFT` plan (its cached chirp and
convolution buffers are pure functions of `n`, `dir` and `m` and are
modelled by `chirpFun` / `Bfun`). -/
structure FFTplan : Type where
  n : ℕ
  dir : FFTDirection
  pow2 : Bool
  m : ℕ
deriving DecidableEq

/-- The `FFT(n, dir)` constructor (`src/fft.h` lines 52-72): throws
`std::invalid_argument` when `n = 0`, otherwise computes `pow2_` and, for
non-powers of two, the Bluestein size `m = bit_ceil(2n - 1)`. -/
def FFT.makePlan (n : ℕ) (dir : FFTDirection) : FFTplan :=
  { n := n, dir := dir, pow2 := is_pow2 n,
    m := if is_pow2 n then 0 else bit_ceil (2 * n - 1) }

def FFT.make (n : ℕ) (dir : FFTDirection) : Except String FFTplan :=
  if n = 0 then Except.error "FFT size must be > 0"
  else Except.ok (FFT.makePlan n dir)

/-- `FFT::execute(in, out)` (`src/fft.h` lines 74-83): throws on size
mismatch of either span, else runs the radix-2 or the Bluestein path. -/
noncomputable def FFTplan.execute (p : FFTplan) (inp out : List ℂ) : Except String (List ℂ) :=
  if inp.length ≠ p.n ∨ out.length ≠ p.n then Except.error "FFT::execute: size mismatch"
  else Except.ok
    (if p.pow2 then
      (List.range p.n).map (fft_radix2_inplace p.n p.dir (fun i => inp.getD i 0))
    else
      (List.range p.n).map (fft_bluestein p.dir p.n p.m (fun i => inp.getD i 0)))

/-- `FFT::operator()` (`src/fft.h` lines 85-90): allocates an output vector
of the input's size and calls `execute`. -/
noncomputable def FFTplan.run (p : FFTplan) (inp : List ℂ) : Except String (List ℂ) :=
  p.execute inp (List.replicate inp.length 0)

/-! ## The epicycle decomposer `FourierCircles` (`src/FourierCircles.h`) -/

/-- `Vec2::length_sq` from `src/Vec2.h` (line 89). -/
def length_sq (v : ℂ) : ℝ := v.re * v.re + v.im * v.im

/-- The private `FourierCircles::fft` wrapper (`src/FourierCircles.h` lines
62-83): returns `{}` for empty input without touching the engine, else
builds a Forward plan of the input's size, executes it, and scales every
output by `1/N`. -/
noncomputable def fourier_fft (input : List ℂ) : Except String (List ℂ) :=
  if input.isEmpty then Except.ok []
  else
    match FFT.make input.length FFTDirection.Forward with
    | Except.error e => Except.error e
    | Except.ok plan =>
      match plan.execute input (List.replicate input.length 0) with
      | Except.error e => Except.error e
      | Except.ok out => Except.ok (out.map (fun z => cscale z (1 / (input.length : ℝ))))

/-- The comparator lambda of `calculateCoefficients`
(`src/FourierCircles.h` lines 21-24). -/
def coeffLess (c : List ℂ) (i j : ℕ) : Prop :=
  length_sq (c.getD i 0) > length_sq (c.getD j 0)

/-- Postcondition of `std::ranges::sort` (C++ [alg.sort]): the result is
*some* permutation of the input range that is sorted with respect to the
comparator.  The relative order of equivalent elements is not specified, so
the sort is modelled relationally. -/
def IsSortedPermOf (r : ℕ → ℕ → Prop) (l out : List ℕ) : Prop :=
  out.Perm l ∧ out.Pairwise (fun i j => ¬ r j i)

/-- Relational model of `FourierCircles::calculateCoefficients`
(`src/FourierCircles.h` lines 16-25): the stored coefficients are the
normalized FFT of the input, and the stored index list is a
`std::ranges::sort`-sorted permutation of `iota(0, N)`. -/
def CalcCoefficients (input coeffs : List ℂ) (idx : List ℕ) : Prop :=
  fourier_fft input = Except.ok coeffs ∧
  IsSortedPermOf (coeffLess coeffs) (List.range coeffs.length) idx

/-- The signed frequency of `calculateVectors` (`src/FourierCircles.h`
line 45): `k = n` if `n <= size >> 1`, else `n - size`, as a signed int. -/
def signedFreq (size n : ℕ) : ℤ :=
  if n ≤ size / 2 then (n : ℤ) else (n : ℤ) - (size : ℤ)

/-- One rotated vector of `calculateVectors` (`src/FourierCircles.h` lines
45-53): coefficient `(a,b)` rotated by `phase = 2 pi t k`. -/
noncomputable def rotStep (coeffs : List ℂ) (t : ℝ) (n : ℕ) : ℂ :=
  ⟨(coeffs.getD n 0).re * Real.cos (2 * Real.pi * t * (signedFreq coeffs.length n : ℤ)) -
     (coeffs.getD n 0).im * Real.sin (2 * Real.pi * t * (signedFreq coeffs.length n : ℤ)),
   (coeffs.getD n 0).re * Real.sin (2 * Real.pi * t * (signedFreq coeffs.length n : ℤ)) +
     (coeffs.getD n 0).im * Real.cos (2 * Real.pi * t * (signedFreq coeffs.length n : ℤ))⟩

/-- `FourierCircles::calculateVectors` (`src/FourierCircles.h` lines
30-57): the `assert` is modelled as an error, the `size == 0` early return
yields no vectors and tip `(0,0)`, and the loop over `sortedIndices`
accumulates the vectors and their running sum. -/
noncomputable def calculateVectors (coeffs : List ℂ) (idx : List ℕ) (t : ℝ) :
    Except String (List ℂ × ℂ) :=
  if coeffs.length ≠ idx.length then Except.error "assert: size mismatch"
  else if coeffs.length = 0 then Except.ok ([], 0)
  else Except.ok (idx.foldl
    (fun st n => (st.1 ++ [rotStep coeffs t n], st.2 + rotStep coeffs t n)) ([], 0))

/-- The stability property asserted by the claim: indices with exactly
equal squared coefficient magnitudes keep their original relative order. -/
def StableTies (c : List ℂ) (idx : List ℕ) : Prop :=
  ∀ a b : ℕ, a < b → b < idx.length →
    length_sq (c.getD (idx.getD a 0) 0) = length_sq (c.getD (idx.getD b 0) 0) →
    idx.getD a 0 < idx.getD b 0

/-- The direct O(N^2) DFT reference, following the spec's words: the spec
fixes the kernel sign by its radix-2 description (section 4.1, "twiddle
factor at stage length L is exp(sign*2*pi*i/L) where sign = -1 for Forward,
+1 for Inverse") and section 8 compares the transform against "a direct
O(N^2) DFT reference". -/
noncomputable def dftReference (dir : FFTDirection) (n : ℕ) (x : ℕ → ℂ) (k : ℕ) : ℂ :=
  dft (dsign dir) n x k

/-! ## SVG resampler (`svg.h`)

`processNSVGimage` distributes `number_of_points` samples along the cubic-Bezier
subpaths of a parsed SVG image.  The parsed image is modelled as
`Option (List (List ℂ))`: `none` is a null `NSVGimage*`, and a `some` carries,
in traversal order, the point list of each `NSVGpath` (each `Vec2f` read from
the raw float pairs becomes one `ℂ`).  Floats are idealised as exact reals. -/

/-- A cubic segment (`svg::CubicSeg`, the four control points; the `length`
field is recomputed by `segLen` below). -/
structure Seg where
  p0 : ℂ
  p1 : ℂ
  p2 : ℂ
  p3 : ℂ

/-- `Vec2::length`: `std::hypot(x, y)`, idealised as `√(x² + y²)`. -/
noncomputable def vlen (v : ℂ) : ℝ := Real.sqrt (length_sq v)

/-- `svg::evalCubic`: Bernstein evaluation
`p0*b0 + p1*b1 + p2*b2 + p3*b3` with `u = 1 - t`, `b0 = u³`, `b1 = 3u²t`,
`b2 = 3ut²`, `b3 = t³` (Vec2 `+` is `cadd`, Vec2 `* float` is `cscale`). -/
noncomputable def evalCubic (p0 p1 p2 p3 : ℂ) (t : ℝ) : ℂ :=
  cadd (cadd (cadd (cscale p0 ((1 - t) * (1 - t) * ((1 - t))))
    (cscale p1 (3 * ((1 - t) * (1 - t)) * t)))
    (cscale p2 (3 * (1 - t) * (t * t))))
    (cscale p3 ((t * t) * t))

/-- `svg::lerp`: `a + (b - a) * t`. -/
noncomputable def lerp (a b : ℂ) (t : ℝ) : ℂ := cadd a (cscale (csub b a) t)

/-- `svg::estimateCubicLength`: sum of the chord lengths between consecutive
samples `evalCubic (i/samples)`, `i = 0..samples` (the source keeps the
previous sample in `prev`; term `i` of the sum is the chord from sample `i`
to sample `i+1`).  Returns `0` when `samples < 1`. -/
noncomputable def estimateCubicLength (s : Seg) (samples : ℕ) : ℝ :=
  if samples < 1 then 0
  else ∑ i ∈ Finset.range samples,
    vlen (csub (evalCubic s.p0 s.p1 s.p2 s.p3 (((i : ℝ) + 1) / (samples : ℝ)))
               (evalCubic s.p0 s.p1 s.p2 s.p3 ((i : ℝ) / (samples : ℝ))))

/-- Per-segment length as used by `processNSVGimage`: 32 samples. -/
noncomputable def segLen (s : Seg) : ℝ := estimateCubicLength s 32

/-- The segment-collection loop of `processNSVGimage` (lines 108-131): starting
from `cur` (initially point 0), each iteration takes the next three points as
`p1, p2, p3`, emits the segment, and continues from `p3`.  The loop guard
`idx + 5 < pts.size()` holds exactly when three more points are available. -/
def collectSegs : ℂ → List ℂ → List Seg
  | cur, p1 :: p2 :: p3 :: rest => ⟨cur, p1, p2, p3⟩ :: collectSegs p3 rest
  | _, _ => []

/-- Per-path kept segments: the source pushes a segment only when
`s.length > 1e-8f` (line 123).  A path with fewer than two points contributes
nothing (`npts < 2` is `continue`d; a single point also yields no segment). -/
noncomputable def pathKeptSegs (pts : List ℂ) : List Seg :=
  match pts with
  | p0 :: rest => (collectSegs p0 rest).filter (fun s => decide (segLen s > 1e-8))
  | [] => []

/-- `totalLenEstimate`: the sum of all kept segment lengths (accumulated at
line 125 exactly when a segment is kept). -/
noncomputable def totalLenEstimateOf (shapePaths : List (List ℂ)) : ℝ :=
  ((shapePaths.map pathKeptSegs).map (fun segs => (segs.map segLen).sum)).sum

/-- `pathSegs`: one entry per path whose kept-segment list is nonempty
(line 133). -/
noncomputable def pathSegsOf (shapePaths : List (List ℂ)) : List (List Seg) :=
  (shapePaths.map pathKeptSegs).filter (fun segs => !segs.isEmpty)

/-- `std::numeric_limits<float>::epsilon() = 2⁻²³`. -/
noncomputable def flt_eps : ℝ := 1 / 8388608

/-- The common oversampling step `ds` (lines 146-150):
`max(totalLenEstimate / (number_of_points * 8), epsilon)`. -/
noncomputable def dsOf (shapePaths : List (List ℂ)) (cnt : ℕ) : ℝ :=
  max (totalLenEstimateOf shapePaths / ((cnt : ℝ) * 8)) flt_eps

/-- One push into a polyline (lines 174-177): the point is appended only when
the polyline is empty or its squared distance to the current back exceeds
`eps2 = 1e-12f`.  The accumulator is kept reversed (head = back). -/
noncomputable def addPt (acc : List ℂ) (p : ℂ) : List ℂ :=
  match acc with
  | [] => [p]
  | q :: _ => if length_sq (csub p q) > 1e-12 then p :: acc else acc

/-- The candidate points of one segment (lines 166-173): `k = max(2,
lround(ceil(length/ds)))` samples of the cubic at `t = j/(k-1)` for
`j = 0..k-1` (`t = 0` if `denom = k-1` were not positive). -/
noncomputable def segPoints (ds : ℝ) (s : Seg) : List ℂ :=
  (List.range (max 2 ⌈segLen s / ds⌉₊)).map (fun (j : ℕ) =>
    evalCubic s.p0 s.p1 s.p2 s.p3
      (if ((max 2 ⌈segLen s / ds⌉₊ - 1 : ℕ) : ℝ) > 0
       then (j : ℝ) / ((max 2 ⌈segLen s / ds⌉₊ - 1 : ℕ) : ℝ) else 0))

/-- `poly.pts` of one path (lines 161-179): all candidate points of all its
segments pushed in order through the `eps2` dedup filter. -/
noncomputable def polyPts (ds : ℝ) (segs : List Seg) : List ℂ :=
  (segs.foldl (fun acc s => (segPoints ds s).foldl addPt acc) []).reverse

/-- `poly.cum[i]` (lines 184-190): the accumulated chord length of the first
`i` polyline edges (`cum[0] = 0`). -/
noncomputable def cumAt (pts : List ℂ) (i : ℕ) : ℝ :=
  ∑ j ∈ Finset.range i, vlen (csub (pts.getD (j + 1) 0) (pts.getD j 0))

/-- `poly.length = poly.cum.back()` (line 191). -/
noncomputable def polyLen (pts : List ℂ) : ℝ := cumAt pts (pts.length - 1)

/-- The cumulative-length array `poly.cum` as a list (same size as `pts`). -/
noncomputable def cumList (pts : List ℂ) : List ℝ :=
  (List.range pts.length).map (cumAt pts)

/-- `paths` (lines 154-195): the polyline of each entry of `pathSegs`, kept
when it has at least two vertices (line 181) and positive length (line 192). -/
noncomputable def buildPaths (ds : ℝ) (pss : List (List Seg)) : List (List ℂ) :=
  (pss.map (polyPts ds)).filter
    (fun pts => decide (2 ≤ pts.length) && decide (polyLen pts > 0))

/-- The recomputed total length (lines 206-208). -/
noncomputable def totalLenOf (paths : List (List ℂ)) : ℝ :=
  (paths.map polyLen).sum

/-- `exact` for path `i` (lines 230-232):
`number_of_points * (paths[i].length / totalLen)`. -/
noncomputable def exactI (cnt : ℕ) (paths : List (List ℂ)) (i : ℕ) : ℝ :=
  (cnt : ℝ) * (polyLen (paths.getD i []) / totalLenOf paths)

/-- `base = floor(exact)` (line 233). -/
noncomputable def baseI (cnt : ℕ) (paths : List (List ℂ)) (i : ℕ) : ℕ :=
  ⌊exactI cnt paths i⌋₊

/-- `baseSum` (line 235): the sum of all the bases. -/
noncomputable def baseSumOf (cnt : ℕ) (paths : List (List ℂ)) : ℕ :=
  ∑ i ∈ Finset.range paths.length, baseI cnt paths i

/-- `fracParts` (line 236): `(exact_i - base_i, i)` in index order. -/
noncomputable def fracPartsOf (cnt : ℕ) (paths : List (List ℂ)) : List (ℝ × ℕ) :=
  (List.range paths.length).map
    (fun i => (exactI cnt paths i - (baseI cnt paths i : ℝ), i))

/-- `leftover` (lines 239-240): `cnt - baseSum` when positive, else `0`
(which is exactly truncated subtraction on `ℕ`). -/
noncomputable def leftoverOf (cnt : ℕ) (paths : List (List ℂ)) : ℕ :=
  cnt - baseSumOf cnt paths

/-- `counts[i] += 1`. -/
def incIdx (c : ℕ → ℕ) (i : ℕ) : ℕ → ℕ := Function.update c i (c i + 1)

/-- `counts` after leftover distribution (lines 243-246): starting from the
bases, add one to `counts[fracParts[k].idx]` for the first
`min leftover fracParts.size` entries of the sorted `fracParts` (`sortP` is
the unspecified-tie-order result of `std::ranges::sort` by decreasing
`frac`). -/
noncomputable def countsAfterLeftover (cnt : ℕ)
    (sortP : List (ℝ × ℕ) → List (ℝ × ℕ)) (paths : List (List ℂ)) : ℕ → ℕ :=
  ((sortP (fracPartsOf cnt paths)).take (leftoverOf cnt paths)).foldl
    (fun c part => incIdx c part.2) (baseI cnt paths)

/-- `finalCount` (lines 250-252): the sum of all the counts. -/
noncomputable def finalCountOf (cnt : ℕ)
    (sortP : List (ℝ × ℕ) → List (ℝ × ℕ)) (paths : List (List ℂ)) : ℕ :=
  ∑ i ∈ Finset.range paths.length, countsAfterLeftover cnt sortP paths i

/-- `byLen` (lines 257-260 and 271-274): `(paths[i].length, i)` pairs. -/
noncomputable def byLenListOf (paths : List (List ℂ)) : List (ℝ × ℕ) :=
  (List.range paths.length).map (fun i => (polyLen (paths.getD i []), i))

/-- The final counts (lines 254-285): when `finalCount < cnt` give the deficit
one-by-one to the paths in `sortLd byLen` order (descending length); when
`finalCount > cnt` trim `min(excess, counts[idx])` from the paths in
`sortLa byLen` order (ascending length); otherwise unchanged. -/
noncomputable def countsOf (cnt : ℕ)
    (sortP sortLd sortLa : List (ℝ × ℕ) → List (ℝ × ℕ))
    (paths : List (List ℂ)) : ℕ → ℕ :=
  if finalCountOf cnt sortP paths < cnt then
    ((sortLd (byLenListOf paths)).take (cnt - finalCountOf cnt sortP paths)).foldl
      (fun c pr => incIdx c pr.2) (countsAfterLeftover cnt sortP paths)
  else if cnt < finalCountOf cnt sortP paths then
    ((sortLa (byLenListOf paths)).foldl
      (fun st pr =>
        (Function.update st.1 pr.2 (st.1 pr.2 - min st.2 (st.1 pr.2)),
         st.2 - min st.2 (st.1 pr.2)))
      (countsAfterLeftover cnt sortP paths, finalCountOf cnt sortP paths - cnt)).1
  else countsAfterLeftover cnt sortP paths

/-- `std::upper_bound(cum, s)` as an index: the first position whose value
exceeds `s` (`upper_bound` returns the first element for which `s < elem`
holds on the sorted range), or the length when there is none. -/
noncomputable def findUpper : List ℝ → ℝ → ℕ
  | [], _ => 0
  | c :: rest, s => if s < c then 0 else findUpper rest s + 1

/-- The two index clamps of lines 309-312: `idx1 = 1` when it is `0`, and
`idx1 = size - 1` when it is `≥ size`. -/
def idxClamp (size r : ℕ) : ℕ :=
  if (if r = 0 then 1 else r) ≥ size then size - 1 else (if r = 0 then 1 else r)

/-- The clamped upper-bound index `idx1` for position `s` on a polyline. -/
noncomputable def idxUpper (pts : List ℂ) (s : ℝ) : ℕ :=
  idxClamp (cumList pts).length (findUpper (cumList pts) s)

/-- `std::nextafter(a, b)` idealised on the reals: the neighbouring float
toward `b` differs from `a` by an infinitesimal, so the model returns `a`
itself.  (The only use, the `s >= poly.length` clamp of lines 304-305, is
proved unreachable in the real model: see the C9 theorem.) -/
noncomputable def nextafterDown (a b : ℝ) : ℝ := a + 0 * b

/-- Lines 304-305: clamp a sample position below the path length. -/
noncomputable def clampS (pts : List ℂ) (s : ℝ) : ℝ :=
  if s ≥ polyLen pts then nextafterDown (polyLen pts) 0 else s

/-- One sample (lines 307-317): bracketing indices `idx0 = idx1 - 1`,
interpolation denominator `max(cum[idx1] - cum[idx0], 1e-12f)`, and linear
interpolation between the two bracketing polyline vertices. -/
noncomputable def sampleAt (pts : List ℂ) (s : ℝ) : ℂ :=
  lerp (pts.getD (idxUpper pts s - 1) 0) (pts.getD (idxUpper pts s) 0)
    ((s - (cumList pts).getD (idxUpper pts s - 1) 0) /
      max ((cumList pts).getD (idxUpper pts s) 0
            - (cumList pts).getD (idxUpper pts s - 1) 0) 1e-12)

/-- The samples of one path with allocated count `n` (lines 297-319):
`step = length/n`, `offset = 0.5*step`, sample `j` at `offset + j*step`
(clamped below the length). -/
noncomputable def samplePath (pts : List ℂ) (n : ℕ) : List ℂ :=
  (List.range n).map (fun (j : ℕ) =>
    sampleAt pts
      (clampS pts (polyLen pts / (n : ℝ) / 2 + (j : ℝ) * (polyLen pts / (n : ℝ)))))

/-- The sampling loop over all paths (lines 289-320); a path with count `0`
contributes nothing (`continue`, line 294). -/
noncomputable def resampleAll (cnt : ℕ)
    (sortP sortLd sortLa : List (ℝ × ℕ) → List (ℝ × ℕ))
    (paths : List (List ℂ)) : List ℂ :=
  ((List.range paths.length).map (fun i =>
    if countsOf cnt sortP sortLd sortLa paths i = 0 then []
    else samplePath (paths.getD i []) (countsOf cnt sortP sortLd sortLa paths i))).flatten

/-- `svg::processNSVGimage`.  The three `std::ranges::sort` calls have
unspecified tie order, so the sorted results are supplied as the functions
`sortP` (fracParts, by decreasing `frac`), `sortLd` (byLen descending) and
`sortLa` (byLen ascending); theorems constrain them only to permutations.
The early returns are: empty result for `number_of_points = 0` (line 82),
origin fill for a null image (lines 84-88), for no usable segments
(lines 138-143) and for no usable polyline (lines 199-203), and a
front-vertex fill when the recomputed total length is nonpositive
(lines 209-213). -/
noncomputable def processNSVGimage (img : Option (List (List ℂ))) (cnt : ℕ)
    (sortP sortLd sortLa : List (ℝ × ℕ) → List (ℝ × ℕ)) : List ℂ :=
  if cnt = 0 then []
  else
    match img with
    | none => List.replicate cnt 0
    | some shapePaths =>
      if (pathSegsOf shapePaths).isEmpty ∨ totalLenEstimateOf shapePaths ≤ 0 then
        List.replicate cnt 0
      else if (buildPaths (dsOf shapePaths cnt) (pathSegsOf shapePaths)).isEmpty then
        List.replicate cnt 0
      else if totalLenOf (buildPaths (dsOf shapePaths cnt) (pathSegsOf shapePaths)) ≤ 0 then
        List.replicate cnt
          ((buildPaths (dsOf shapePaths cnt) (pathSegsOf shapePaths)).headI.headI)
      else
        resampleAll cnt sortP sortLd sortLa
          (buildPaths (dsOf shapePaths cnt) (pathSegsOf shapePaths))

theorem cadd_eq (a b : ℂ) : cadd a b = a + b := by
  apply Complex.ext <;> simp [cadd]

theorem csub_eq (a b : ℂ) : csub a b = a - b := by
  apply Complex.ext <;> simp [csub]

theorem cmul_eq (a b : ℂ) : cmul a b = a * b := by
  apply Complex.ext <;> simp [cmul, Complex.mul_re, Complex.mul_im]

theorem cconj_eq (a : ℂ) : cconj a = starRingEnd ℂ a := by
  apply Complex.ext <;> simp [cconj]

theorem cscale_eq (a : ℂ) (s : ℝ) : cscale a s = a * (s : ℂ) := by
  apply Complex.ext <;> simp [cscale, Complex.mul_re, Complex.mul_im, mul_comm]

theorem cexpI_re (θ : ℝ) : (cexpI θ).re = Real.cos θ := by
  simp [cexpI, Complex.exp_re]

theorem cexpI_im (θ : ℝ) : (cexpI θ).im = Real.sin θ := by
  simp [cexpI, Complex.exp_im]

theorem cexpI_mk (θ : ℝ) : (⟨Real.cos θ, Real.sin θ⟩ : ℂ) = cexpI θ := by
  apply Complex.ext
  · simp [cexpI_re]
  · simp [cexpI_im]

theorem cexpI_zero : cexpI 0 = 1 := by simp [cexpI]

theorem cexpI_add (x y : ℝ) : cexpI (x + y) = cexpI x * cexpI y := by
  simp only [cexpI, Complex.ofReal_add, add_mul, Complex.exp_add]

theorem cexpI_pow (x : ℝ) (k : ℕ) : cexpI x ^ k = cexpI (k * x) := by
  induction k with
  | zero => simp [cexpI_zero]
  | succ k ih =>
    rw [pow_succ, ih, ← cexpI_add]
    congr 1
    push_cast
    ring

theorem cexpI_int_two_pi (n : ℤ) : cexpI (n * (2 * Real.pi)) = 1 := by
  have h : ((n * (2 * Real.pi) : ℝ) : ℂ) * Complex.I = n * (2 * Real.pi * Complex.I) := by
    push_cast
    ring
  rw [cexpI, h, Complex.exp_int_mul_two_pi_mul_I]

theorem cexpI_pi : cexpI Real.pi = -1 := Complex.exp_pi_mul_I

theorem cexpI_neg_pi : cexpI (-Real.pi) = -1 := by
  have h := cexpI_add Real.pi (-Real.pi)
  simp only [add_neg_cancel, cexpI_zero] at h
  rw [cexpI_pi] at h
  linear_combination h

theorem cexpI_eq_one_iff (θ : ℝ) : cexpI θ = 1 ↔ ∃ m : ℤ, θ = m * (2 * Real.pi) := by
  rw [cexpI, Complex.exp_eq_one_iff]
  constructor
  · rintro ⟨m, hm⟩
    refine ⟨m, ?_⟩
    have h2 : (m : ℂ) * (2 * Real.pi * Complex.I) = ((m * (2 * Real.pi) : ℝ) : ℂ) * Complex.I := by
      push_cast
      ring
    rw [h2] at hm
    have hI : (Complex.I : ℂ) ≠ 0 := Complex.I_ne_zero
    have := mul_right_cancel₀ hI hm
    exact_mod_cast this
  · rintro ⟨m, hm⟩
    refine ⟨m, ?_⟩
    rw [hm]
    push_cast
    ring

/-- Orthogonality of the `n`-th roots of unity: the geometric sum of
`exp(i 2 pi d t / n)` over `t < n` is `n` when `n ∣ d` and `0` otherwise. -/
theorem sum_cexpI_orth (n : ℕ) (hn : 0 < n) (d : ℤ) :
    ∑ t ∈ Finset.range n, cexpI ((d : ℝ) * (2 * Real.pi) * t / n) =
      if (n : ℤ) ∣ d then (n : ℂ) else 0 := by
  have hn' : (n : ℝ) ≠ 0 := Nat.cast_ne_zero.mpr hn.ne'
  have hterm : ∀ t : ℕ, cexpI ((d : ℝ) * (2 * Real.pi) * t / n) =
      cexpI ((d : ℝ) * (2 * Real.pi) / n) ^ t := by
    intro t
    rw [cexpI_pow]
    congr 1
    field_simp
    ring
  by_cases hdvd : (n : ℤ) ∣ d
  · rw [if_pos hdvd]
    obtain ⟨e, he⟩ := hdvd
    have hz : cexpI ((d : ℝ) * (2 * Real.pi) / n) = 1 := by
      have : (d : ℝ) * (2 * Real.pi) / n = (e : ℝ) * (2 * Real.pi) := by
        rw [he]
        push_cast
        field_simp
        ring
      rw [this, cexpI_int_two_pi]
    simp only [hterm, hz, one_pow, sum_const, card_range, nsmul_eq_mul, mul_one]
  · have hz : cexpI ((d : ℝ) * (2 * Real.pi) / n) ≠ 1 := by
      intro hone
      obtain ⟨m, hm⟩ := (cexpI_eq_one_iff _).mp hone
      apply hdvd
      have hpi : (2 * Real.pi : ℝ) ≠ 0 := by positivity
      have hm' : (d : ℝ) / n * (2 * Real.pi) = m * (2 * Real.pi) := by
        rw [← hm]
        ring
      have h3 : (d : ℝ) / n = m := mul_right_cancel₀ hpi hm'
      rw [div_eq_iff hn'] at h3
      have h4 : d = m * n := by exact_mod_cast h3
      exact ⟨m, by rw [h4]; ring⟩
    rw [if_neg hdvd]
    simp only [hterm]
    rw [geom_sum_eq hz]
    have hzn : cexpI ((d : ℝ) * (2 * Real.pi) / n) ^ n = 1 := by
      rw [cexpI_pow]
      have : (n : ℝ) * ((d : ℝ) * (2 * Real.pi) / n) = (d : ℝ) * (2 * Real.pi) := by
        field_simp
      rw [this, cexpI_int_two_pi]
    rw [hzn]
    simp

/-- DFT inversion: composing the opposite-sign unnormalized transforms
multiplies by `n`. -/
theorem dft_dft (s : ℝ) (hs : s = 1 ∨ s = -1) (n : ℕ) (hn : 0 < n) (x : ℕ → ℂ)
    (l : ℕ) (hl : l < n) :
    dft (-s) n (fun k => dft s n x k) l = (n : ℂ) * x l := by
  have hn' : (n : ℝ) ≠ 0 := Nat.cast_ne_zero.mpr hn.ne'
  obtain ⟨D, hDval, hDz⟩ : ∃ D : ℕ → ℤ,
      (∀ j : ℕ, ((D j : ℝ)) = s * ((j : ℝ) - (l : ℝ))) ∧
      (∀ j, j < n → (D j = 0 ↔ j = l) ∧ |D j| < (n : ℤ)) := by
    rcases hs with rfl | rfl
    · refine ⟨fun j => (j : ℤ) - l, fun j => by push_cast; ring, fun j hj => ?_⟩
      dsimp only
      exact ⟨by omega, by rw [abs_sub_lt_iff]; omega⟩
    · refine ⟨fun j => (l : ℤ) - j, fun j => by push_cast; ring, fun j hj => ?_⟩
      dsimp only
      exact ⟨by omega, by rw [abs_sub_lt_iff]; omega⟩
  unfold dft
  calc
    ∑ k ∈ Finset.range n, (∑ j ∈ Finset.range n, x j * cexpI (s * (2 * Real.pi) * k * j / n)) *
        cexpI (-s * (2 * Real.pi) * l * k / n)
      = ∑ j ∈ Finset.range n, x j * ∑ k ∈ Finset.range n,
          cexpI ((D j : ℝ) * (2 * Real.pi) * k / n) := by
        simp only [Finset.sum_mul]
        rw [Finset.sum_comm]
        refine Finset.sum_congr rfl fun j _ => ?_
        rw [Finset.mul_sum]
        refine Finset.sum_congr rfl fun k _ => ?_
        rw [mul_assoc, ← cexpI_add]
        congr 1
        rw [hDval j]
        field_simp
        ring
    _ = (n : ℂ) * x l := by
        have horth : ∀ j ∈ Finset.range n,
            x j * ∑ k ∈ Finset.range n, cexpI ((D j : ℝ) * (2 * Real.pi) * k / n)
            = if j = l then (n : ℂ) * x l else 0 := by
          intro j hj
          have hjn : j < n := Finset.mem_range.mp hj
          rw [sum_cexpI_orth n hn (D j)]
          by_cases hjl : j = l
          · subst hjl
            rw [if_pos ((hDz j hjn).1.mpr rfl ▸ dvd_zero _), if_pos rfl, mul_comm]
          · rw [if_neg hjl, if_neg, mul_zero]
            intro hdvd
            exact hjl (((hDz j hjn).1.mp (Int.eq_zero_of_abs_lt_dvd hdvd (hDz j hjn).2)))
        rw [Finset.sum_congr rfl horth, Finset.sum_ite_eq' (Finset.range n) l
          (fun _ => (n : ℂ) * x l)]
        simp [Finset.mem_range.mpr hl]

theorem revBits_lt (b x : ℕ) : revBits b x < 2 ^ b := by
  induction b generalizing x with
  | zero => simp [revBits]
  | succ b ih =>
    have h2 : x % 2 ≤ 1 := by omega
    have := ih (x / 2)
    calc revBits (b + 1) x = 2 ^ b * (x % 2) + revBits b (x / 2) := rfl
      _ < 2 ^ b * (x % 2) + 2 ^ b := by omega
      _ ≤ 2 ^ b * 1 + 2 ^ b := by
          have : 2 ^ b * (x % 2) ≤ 2 ^ b * 1 := Nat.mul_le_mul_left _ h2
          omega
      _ ≤ 2 ^ (b + 1) := by rw [pow_succ]; omega

theorem revBits_two_mul (b q : ℕ) : revBits (b + 1) (2 * q) = revBits b q := by
  show 2 ^ b * (2 * q % 2) + revBits b (2 * q / 2) = revBits b q
  simp [Nat.mul_mod_right, Nat.mul_div_cancel_left]

theorem revBits_two_mul_add_one (b q : ℕ) :
    revBits (b + 1) (2 * q + 1) = 2 ^ b + revBits b q := by
  show 2 ^ b * ((2 * q + 1) % 2) + revBits b ((2 * q + 1) / 2) = 2 ^ b + revBits b q
  have h1 : (2 * q + 1) % 2 = 1 := by omega
  have h2 : (2 * q + 1) / 2 = q := by omega
  rw [h1, h2, mul_one]

/-- Decomposition of `revBits` from the top bit side. -/
theorem revBits_high_add (b e r : ℕ) (he : e ≤ 1) (hr : r < 2 ^ b) :
    revBits (b + 1) (2 ^ b * e + r) = 2 * revBits b r + e := by
  induction b generalizing e r with
  | zero =>
    interval_cases r
    interval_cases e <;> simp [revBits]
  | succ b ih =>
    have hpow : 2 ^ (b + 1) * e = 2 * (2 ^ b * e) := by ring
    have hmod : (2 ^ (b + 1) * e + r) % 2 = r % 2 := by omega
    have hdiv : (2 ^ (b + 1) * e + r) / 2 = 2 ^ b * e + r / 2 := by omega
    have hr2 : r / 2 < 2 ^ b := by
      rw [pow_succ] at hr
      omega
    calc revBits (b + 2) (2 ^ (b + 1) * e + r)
        = 2 ^ (b + 1) * ((2 ^ (b + 1) * e + r) % 2)
            + revBits (b + 1) ((2 ^ (b + 1) * e + r) / 2) := rfl
      _ = 2 ^ (b + 1) * (r % 2) + revBits (b + 1) (2 ^ b * e + r / 2) := by
          rw [hmod, hdiv]
      _ = 2 ^ (b + 1) * (r % 2) + (2 * revBits b (r / 2) + e) := by rw [ih e (r / 2) he hr2]
      _ = 2 * (2 ^ b * (r % 2) + revBits b (r / 2)) + e := by rw [pow_succ]; ring
      _ = 2 * revBits (b + 1) r + e := rfl

theorem revBits_revBits (b x : ℕ) (hx : x < 2 ^ b) : revBits b (revBits b x) = x := by
  induction b generalizing x with
  | zero =>
    interval_cases x
    simp [revBits]
  | succ b ih =>
    have hx2 : x / 2 < 2 ^ b := by
      rw [pow_succ] at hx
      omega
    have hub : revBits b (x / 2) < 2 ^ b := revBits_lt b (x / 2)
    have hmod : x % 2 ≤ 1 := by omega
    calc revBits (b + 1) (revBits (b + 1) x)
        = revBits (b + 1) (2 ^ b * (x % 2) + revBits b (x / 2)) := rfl
      _ = 2 * revBits b (revBits b (x / 2)) + x % 2 := revBits_high_add b _ _ hmod hub
      _ = 2 * (x / 2) + x % 2 := by rw [ih (x / 2) hx2]
      _ = x := by omega

/-! ### Bitwise-arithmetic bridging lemmas -/

theorem testBit_false_of_lt {x k : ℕ} (h : x < 2 ^ k) : x.testBit k = false :=
  Nat.testBit_lt_two_pow h

theorem and_two_pow_eq_zero_iff (x k : ℕ) (hx : x < 2 ^ (k + 1)) :
    x &&& 2 ^ k = 0 ↔ x < 2 ^ k := by
  have hbit : x.testBit k = decide (2 ^ k ≤ x) := by
    rw [Nat.testBit_to_div_mod]
    rcases Nat.lt_or_ge x (2 ^ k) with h | h
    · have : x / 2 ^ k = 0 := Nat.div_eq_of_lt h
      simp [this, Nat.not_le.mpr h]
    · have h1 : 1 ≤ x / 2 ^ k := (Nat.one_le_div_iff (Nat.pos_pow_of_pos k (by norm_num))).mpr h
      have h2 : x / 2 ^ k < 2 := by
        rw [Nat.div_lt_iff_lt_mul (Nat.pos_pow_of_pos k (by norm_num))]
        rw [pow_succ] at hx
        omega
      have : x / 2 ^ k = 1 := by omega
      simp [this, h]
  constructor
  · intro h0
    by_contra hlt
    have hge : 2 ^ k ≤ x := Nat.not_lt.mp hlt
    have : (x &&& 2 ^ k).testBit k = true := by
      rw [Nat.testBit_and, hbit, Nat.testBit_two_pow_self]
      simp [hge]
    rw [h0] at this
    simp at this
  · intro hlt
    apply Nat.eq_of_testBit_eq
    intro i
    rw [Nat.testBit_and, Nat.zero_testBit]
    by_cases hik : i = k
    · subst hik
      rw [hbit]
      simp [Nat.not_le.mpr hlt]
    · rw [Nat.testBit_two_pow_of_ne (fun h => hik h.symm)]
      simp

theorem xor_two_pow_of_ge (r k : ℕ) (hr : r < 2 ^ k) :
    (2 ^ k + r) ^^^ 2 ^ k = r := by
  apply Nat.eq_of_testBit_eq
  intro i
  rw [Nat.testBit_xor]
  rcases Nat.lt_trichotomy i k with hik | hik | hik
  · rw [Nat.testBit_two_pow_of_ne (show k ≠ i by omega), Nat.testBit_two_pow_add_gt hik]
    simp
  · subst hik
    rw [Nat.testBit_two_pow_self, Nat.testBit_two_pow_add_eq, testBit_false_of_lt hr]
    simp [testBit_false_of_lt hr]
  · have h1 : 2 ^ k + r < 2 ^ i := by
      have : 2 ^ (k + 1) ≤ 2 ^ i := Nat.pow_le_pow_right (by norm_num) hik
      rw [pow_succ] at this
      omega
    rw [testBit_false_of_lt h1, Nat.testBit_two_pow_of_ne (show k ≠ i by omega),
      testBit_false_of_lt (lt_trans hr (by omega))]
    simp

theorem or_two_pow_of_lt (r k : ℕ) (hr : r < 2 ^ k) : r ||| 2 ^ k = r + 2 ^ k := by
  apply Nat.eq_of_testBit_eq
  intro i
  rw [Nat.testBit_or]
  rcases Nat.lt_trichotomy i k with hik | hik | hik
  · rw [Nat.testBit_two_pow_of_ne (show k ≠ i by omega)]
    have : (2 ^ k + r).testBit i = r.testBit i := Nat.testBit_two_pow_add_gt hik r
    rw [Nat.add_comm r (2 ^ k), this]
    simp
  · subst hik
    rw [Nat.testBit_two_pow_self, Nat.add_comm r (2 ^ i), Nat.testBit_two_pow_add_eq,
      testBit_false_of_lt hr]
    simp
  · have h1 : r + 2 ^ k < 2 ^ i := by
      have : 2 ^ (k + 1) ≤ 2 ^ i := Nat.pow_le_pow_right (by norm_num) hik
      rw [pow_succ] at this
      omega
    rw [testBit_false_of_lt h1, Nat.testBit_two_pow_of_ne (show k ≠ i by omega),
      testBit_false_of_lt (lt_trans hr (by omega))]
    simp

/-- The carry loop computes the reversed-binary increment. -/
theorem brIncGo_revBits (b i : ℕ) (hb : 0 < b) (hi : i + 1 < 2 ^ b) :
    brIncGo (2 ^ b / 2) (revBits b i) = revBits b (i + 1) := by
  induction b generalizing i with
  | zero => omega
  | succ b ih =>
    have hdiv : 2 ^ (b + 1) / 2 = 2 ^ b := by
      rw [pow_succ]
      omega
    rw [hdiv]
    rcases Nat.even_or_odd i with ⟨q, hq⟩ | ⟨q, hq⟩
    · -- i even: the reversed value has top bit clear; the loop sets it.
      subst hq
      have hq2 : q + q = 2 * q := by ring
      rw [hq2, revBits_two_mul]
      have hlt : revBits b q < 2 ^ b := revBits_lt b q
      have hand : revBits b q &&& 2 ^ b = 0 := by
        rw [and_two_pow_eq_zero_iff _ _ (lt_trans hlt (by rw [pow_succ]; omega))]
        exact hlt
      rw [brIncGo]
      simp only [hand, ne_eq, not_true_eq_false, reduceIte, not_false_eq_true]
      rw [or_two_pow_of_lt _ _ hlt]
      rw [show 2 * q + 1 = 2 * q + 1 from rfl, revBits_two_mul_add_one]
      omega
    · -- i odd: the reversed top bit is set; the loop clears it and recurses.
      subst hq
      have hb' : 0 < b := by
        by_contra hb0
        have : b = 0 := by omega
        subst this
        simp at hi
        omega
      rw [revBits_two_mul_add_one]
      have hlt : revBits b q < 2 ^ b := revBits_lt b q
      have hand : (2 ^ b + revBits b q) &&& 2 ^ b ≠ 0 := by
        intro h0
        rw [and_two_pow_eq_zero_iff _ _ (by rw [pow_succ]; omega)] at h0
        omega
      rw [brIncGo]
      simp only [hand, ne_eq, not_false_eq_true, reduceIte]
      rw [xor_two_pow_of_ge _ _ hlt]
      have hrec := ih q hb' (by omega)
      rw [hrec]
      have : 2 * q + 1 + 1 = 2 * (q + 1) := by ring
      rw [this, revBits_two_mul]

/-- Invariant of the conditional-swap loop: after steps `1..i-1`, position `p`
holds `a (rev p)` when `p` or `rev p` has already been visited, else `a p`. -/
theorem brLoopAux_spec (b : ℕ) (hb : 0 < b) (a : ℕ → ℂ) :
    ∀ f i j g, 1 ≤ i → i + f = 2 ^ b → j = revBits b (i - 1) →
      (∀ p, p < 2 ^ b →
        g p = if p < i ∨ revBits b p < i then a (revBits b p) else a p) →
      ∀ p, p < 2 ^ b → brLoopAux (2 ^ b) f i j g p = a (revBits b p) := by
  intro f
  induction f with
  | zero =>
    intro i j g hi hif hj hg p hp
    have := hg p hp
    rw [brLoopAux]
    rw [this, if_pos]
    left
    omega
  | succ f ih =>
    intro i j g hi hif hj hg p hp
    rw [brLoopAux]
    have hilt : i < 2 ^ b := by omega
    have hinc : brIncGo (2 ^ b / 2) j = revBits b i := by
      rw [hj]
      have h1 : i - 1 + 1 = i := by omega
      have := brIncGo_revBits b (i - 1) hb (by omega)
      rw [h1] at this
      exact this
    set j' := brIncGo (2 ^ b / 2) j with hj'def
    have hj' : j' = revBits b i := hinc
    have hrevi : revBits b i < 2 ^ b := revBits_lt b i
    have hrr : revBits b (revBits b i) = i := revBits_revBits b i hilt
    refine ih (i + 1) j' _ (by omega) (by omega)
      (by rw [hj', Nat.add_sub_cancel]) ?_ p hp
    intro p hp'
    by_cases hswap : i < j'
    · rw [if_pos hswap]
      rw [swapF]
      by_cases hpj : p = j'
      · subst hpj
        rw [Function.update_same]
        have hgi := hg i hilt
        rw [if_neg] at hgi
        · rw [hgi, if_pos]
          · rw [hj', hrr]
          · right
            rw [hj', hrr]
            omega
        · push_neg
          constructor
          · omega
          · rw [hj'] at hswap
            omega
      · rw [Function.update_noteq hpj]
        by_cases hpi : p = i
        · subst hpi
          rw [Function.update_same]
          have hgj := hg j' (by rw [hj']; exact hrevi)
          rw [if_neg] at hgj
          · rw [hgj, if_pos]
            · rw [hj']
            · left
              omega
          · push_neg
            rw [hj', hrr]
            constructor <;> omega
        · rw [Function.update_noteq hpi]
          have hgp := hg p hp'
          rw [hgp]
          by_cases hcond : p < i ∨ revBits b p < i
          · rw [if_pos hcond, if_pos (by omega)]
          · rw [if_neg hcond, if_neg]
            push_neg at hcond ⊢
            have hrp : revBits b p ≠ i := by
              intro he
              apply hpj
              rw [hj', ← he, revBits_revBits b p hp']
            omega
    · rw [if_neg hswap]
      have hji : j' ≤ i := by omega
      have hgp := hg p hp'
      by_cases hpi : p = i
      · subst hpi
        rw [hgp]
        rcases Nat.lt_or_ge (revBits b p) p with hlt | hge
        · rw [if_pos (Or.inr hlt), if_pos (Or.inr (by omega))]
        · have heq : revBits b p = p := by
            rw [hj'] at hji
            omega
          rw [heq, if_neg (by omega), if_pos (by omega)]
      · rw [hgp]
        by_cases hcond : p < i ∨ revBits b p < i
        · rw [if_pos hcond, if_pos (by omega)]
        · rw [if_neg hcond, if_neg]
          push_neg at hcond ⊢
          have hrp : revBits b p ≠ i := by
            intro he
            have : p = revBits b i := by
              rw [← he, revBits_revBits b p hp']
            rw [← hj'] at this
            omega
          omega

theorem revBits_zero (b : ℕ) : revBits b 0 = 0 := by
  induction b with
  | zero => rfl
  | succ b ih => simp [revBits, ih]

/-- The bit-reversal pass permutes the array by `revBits`. -/
theorem bitrevPass_spec (b : ℕ) (hb : 0 < b) (a : ℕ → ℂ) (p : ℕ) (hp : p < 2 ^ b) :
    bitrevPass (2 ^ b) a p = a (revBits b p) := by
  have h2 : (2 : ℕ) ≤ 2 ^ b := by
    calc (2 : ℕ) = 2 ^ 1 := by norm_num
      _ ≤ 2 ^ b := Nat.pow_le_pow_right (by norm_num) hb
  refine brLoopAux_spec b hb a (2 ^ b - 1) 1 0 a le_rfl (by omega)
    (by rw [Nat.sub_self, revBits_zero]) ?_ p hp
  intro q hq
  by_cases hcond : q < 1 ∨ revBits b q < 1
  · rw [if_pos hcond]
    have hq0 : q = 0 := by
      rcases hcond with h | h
      · omega
      · have : revBits b q = 0 := by omega
        have := revBits_revBits b q hq
        rw [‹revBits b q = 0›, revBits_zero] at this
        omega
    subst hq0
    rw [revBits_zero]
  · rw [if_neg hcond]

theorem complex_mk_one : (⟨1, 0⟩ : ℂ) = 1 := rfl

/-- Behaviour of the inner butterfly loop: positions `base+j'` and
`base+j'+half` (for `j ≤ j' < half`) receive the butterfly of the current
values, and all other positions are untouched. -/
theorem butterflyInner_spec (t : ℂ) (base half : ℕ) :
    ∀ f j g, j + f = half →
      ((∀ j', j ≤ j' → j' < half →
        butterflyInner t base half f j (t ^ j) g (base + j') =
          g (base + j') + g (base + j' + half) * t ^ j' ∧
        butterflyInner t base half f j (t ^ j) g (base + j' + half) =
          g (base + j') - g (base + j' + half) * t ^ j') ∧
      (∀ p, (∀ j', j ≤ j' → j' < half → p ≠ base + j' ∧ p ≠ base + j' + half) →
        butterflyInner t base half f j (t ^ j) g p = g p)) := by
  intro f
  induction f with
  | zero =>
    intro j g hj
    constructor
    · intro j' h1 h2
      omega
    · intro p _
      rfl
  | succ f ih =>
    intro j g hj
    have hjh : j < half := by omega
    have hupd : butterflyInner t base half (f + 1) j (t ^ j) g =
        butterflyInner t base half f (j + 1) (t ^ (j + 1))
          (Function.update
            (Function.update g (base + j)
              (cadd (g (base + j)) (cmul (g (base + j + half)) (t ^ j))))
            (base + j + half)
            (csub (g (base + j)) (cmul (g (base + j + half)) (t ^ j)))) := by
      show butterflyInner t base half f (j + 1) (cmul (t ^ j) t) _ =
        butterflyInner t base half f (j + 1) (t ^ (j + 1)) _
      rw [cmul_eq, ← pow_succ]
    set g' := Function.update
      (Function.update g (base + j)
        (cadd (g (base + j)) (cmul (g (base + j + half)) (t ^ j))))
      (base + j + half)
      (csub (g (base + j)) (cmul (g (base + j + half)) (t ^ j))) with hg'
    have ihs := ih (j + 1) g' (by omega)
    have hg'lo : g' (base + j) = g (base + j) + g (base + j + half) * t ^ j := by
      rw [hg', Function.update_noteq (by omega), Function.update_same, cadd_eq, cmul_eq]
    have hg'hi : g' (base + j + half) = g (base + j) - g (base + j + half) * t ^ j := by
      rw [hg', Function.update_same, csub_eq, cmul_eq]
    have hg'other : ∀ p, p ≠ base + j → p ≠ base + j + half → g' p = g p := by
      intro p h1 h2
      rw [hg', Function.update_noteq h2, Function.update_noteq h1]
    constructor
    · intro j' h1 h2
      rcases Nat.eq_or_lt_of_le h1 with hjj | hjj
    -- j' = j: this step wrote the values; later steps leave them alone.
      · subst hjj
        have huntouched := ihs.2
        constructor
        · rw [hupd, huntouched (base + j) (by intro j2 hj1 hj2; omega), hg'lo]
        · rw [hupd, huntouched (base + j + half) (by intro j2 hj1 hj2; omega), hg'hi]
        -- j' > j: handled by the recursive call on g', whose reads are untouched.
      · have hmain := ihs.1 j' (by omega) h2
        have e1 : g' (base + j') = g (base + j') := by
          apply hg'other <;> omega
        have e2 : g' (base + j' + half) = g (base + j' + half) := by
          apply hg'other <;> omega
        rw [hupd]
        rw [hmain.1, hmain.2, e1, e2]
        exact ⟨rfl, rfl⟩
    · intro p hp
      have h0 := hp j le_rfl hjh
      rw [hupd, ihs.2 p (by intro j'' h1 h2; exact hp j'' (by omega) h2),
        hg'other p h0.1 h0.2]

theorem block_index_ne (len q r q2 r2 : ℕ) (hr : r < len) (hr2 : r2 < len)
    (hq : q ≠ q2) : q * len + r ≠ q2 * len + r2 := by
  rcases Nat.lt_or_ge q q2 with h | h
  · have : (q + 1) * len ≤ q2 * len := Nat.mul_le_mul_right len (by omega)
    rw [add_mul, one_mul] at this
    omega
  · have hq2q : q2 < q := by omega
    have : (q2 + 1) * len ≤ q * len := Nat.mul_le_mul_right len (by omega)
    rw [add_mul, one_mul] at this
    omega

/-- Behaviour of the middle loop over blocks: block `q` (of the `k` blocks
starting at `i`) receives the butterflies of its own values; everything else
is untouched. -/
theorem blocksLoop_spec (t : ℂ) (half : ℕ) (hhalf : 0 < half) :
    ∀ k i g,
      ((∀ q r, q < k → r < 2 * half →
        blocksLoop t (2 * half) k i g (i + q * (2 * half) + r) =
          (if r < half then
            g (i + q * (2 * half) + r) + g (i + q * (2 * half) + r + half) * t ^ r
          else
            g (i + q * (2 * half) + (r - half)) -
              g (i + q * (2 * half) + r) * t ^ (r - half))) ∧
      (∀ p, (∀ q r, q < k → r < 2 * half → p ≠ i + q * (2 * half) + r) →
        blocksLoop t (2 * half) k i g p = g p)) := by
  intro k
  induction k with
  | zero =>
    intro i g
    constructor
    · intro q r hq hr
      omega
    · intro p _
      rfl
  | succ k ih =>
    intro i g
    have hdiv : 2 * half / 2 = half := by omega
    have hunf : blocksLoop t (2 * half) (k + 1) i g =
        blocksLoop t (2 * half) k (i + 2 * half)
          (butterflyInner t i half half 0 (t ^ 0) g) := by
      show blocksLoop t (2 * half) k (i + 2 * half)
          (butterflyInner t i (2 * half / 2) (2 * half / 2) 0 ⟨1, 0⟩ g) = _
      rw [hdiv, complex_mk_one, pow_zero]
    set g1 := butterflyInner t i half half 0 (t ^ 0) g with hg1
    have hinner := butterflyInner_spec t i half half 0 g (by omega)
    have ihs := ih (i + 2 * half) g1
    -- values of g1 inside the first block
    have hg1in : ∀ r, r < 2 * half →
        g1 (i + r) = (if r < half then g (i + r) + g (i + r + half) * t ^ r
          else g (i + (r - half)) - g (i + r) * t ^ (r - half)) := by
      intro r hr
      by_cases hrh : r < half
      · rw [if_pos hrh]
        have := (hinner.1 r (by omega) hrh).1
        rw [hg1]
        convert this using 2
      · rw [if_neg hrh]
        have h2 := (hinner.1 (r - half) (by omega) (by omega)).2
        have he : i + (r - half) + half = i + r := by omega
        rw [he] at h2
        rw [hg1]
        exact h2
    -- g1 agrees with g outside the first block
    have hg1out : ∀ p, (∀ r, r < 2 * half → p ≠ i + r) → g1 p = g p := by
      intro p hp
      rw [hg1]
      apply hinner.2
      intro j' h1 h2
      refine ⟨hp j' (by omega), ?_⟩
      have := hp (j' + half) (by omega)
      omega
    constructor
    · intro q r hq hr
      rcases Nat.eq_zero_or_pos q with hq0 | hqpos
      · subst hq0
        rw [hunf]
        have houts : ∀ q2 r2, q2 < k → r2 < 2 * half →
            i + 0 * (2 * half) + r ≠ i + 2 * half + q2 * (2 * half) + r2 := by
          intro q2 r2 _ hr2
          omega
        rw [ihs.2 _ (by intro q2 r2 hq2 hr2; exact houts q2 r2 hq2 hr2)]
        have hr' : i + 0 * (2 * half) + r = i + r := by omega
        rw [hr', hg1in r hr]
        congr 1 <;> · congr 2 <;> omega
      · rw [hunf]
        have hshift : i + q * (2 * half) + r =
            i + 2 * half + (q - 1) * (2 * half) + r := by
          have : q * (2 * half) = (q - 1) * (2 * half) + 2 * half := by
            have hq1 : q = (q - 1) + 1 := by omega
            calc q * (2 * half) = ((q - 1) + 1) * (2 * half) := by rw [← hq1]
              _ = (q - 1) * (2 * half) + 2 * half := by ring
          omega
        rw [hshift, ihs.1 (q - 1) r (by omega) hr]
        have hout : ∀ x, x < 2 * half → ∀ y, 2 * half ≤ y →
            g1 (i + y) = g (i + y) := by
          intro x _ y hy
          apply hg1out
          intro r2 hr2
          omega
        have hQ : q * (2 * half) = (q - 1) * (2 * half) + 2 * half := by
          have hq1 : q = (q - 1) + 1 := by omega
          calc q * (2 * half) = ((q - 1) + 1) * (2 * half) := by rw [← hq1]
            _ = (q - 1) * (2 * half) + 2 * half := by ring
        by_cases hrh : r < half
        · rw [if_pos hrh, if_pos hrh,
            hg1out _ (by intro r2 hr2; omega), hg1out _ (by intro r2 hr2; omega)]
        · rw [if_neg hrh, if_neg hrh,
            hg1out _ (by intro r2 hr2; omega), hg1out _ (by intro r2 hr2; omega)]
          have harg : i + 2 * half + (q - 1) * (2 * half) + (r - half) =
              i + q * (2 * half) + (r - half) := by omega
          rw [harg]
    · intro p hp
      rw [hunf, ihs.2 p, hg1out p]
      · intro r hr
        have := hp 0 r (by omega) hr
        omega
      · intro q2 r2 hq2 hr2
        have := hp (q2 + 1) r2 (by omega) hr2
        have hsh : i + (q2 + 1) * (2 * half) + r2 = i + 2 * half + q2 * (2 * half) + r2 := by
          ring
        omega

theorem sum_range_even_odd (L : ℕ) (f : ℕ → ℂ) :
    ∑ u ∈ Finset.range (2 * L), f u =
      (∑ t ∈ Finset.range L, f (2 * t)) + ∑ t ∈ Finset.range L, f (2 * t + 1) := by
  induction L with
  | zero => simp
  | succ L ih =>
    have h : 2 * (L + 1) = 2 * L + 1 + 1 := by ring
    rw [h, Finset.sum_range_succ, Finset.sum_range_succ, ih,
      Finset.sum_range_succ, Finset.sum_range_succ]
    ring

theorem cexpI_sign_two_pi_nat (sign : ℝ) (hsign : sign = 1 ∨ sign = -1) (t : ℕ) :
    cexpI (sign * (2 * Real.pi) * t) = 1 := by
  rcases hsign with rfl | rfl
  · have : (1 : ℝ) * (2 * Real.pi) * t = ((t : ℤ) : ℝ) * (2 * Real.pi) := by
      push_cast
      ring
    rw [this, cexpI_int_two_pi]
  · have : (-1 : ℝ) * (2 * Real.pi) * t = ((-(t : ℤ) : ℤ) : ℝ) * (2 * Real.pi) := by
      push_cast
      ring
    rw [this, cexpI_int_two_pi]

theorem cexpI_sign_pi (sign : ℝ) (hsign : sign = 1 ∨ sign = -1) :
    cexpI (sign * Real.pi) = -1 := by
  rcases hsign with rfl | rfl
  · rw [one_mul, cexpI_pi]
  · rw [neg_one_mul, cexpI_neg_pi]

theorem div_mod_block (L q r : ℕ) (hL : 0 < L) (hr : r < L) :
    (q * L + r) / L = q ∧ (q * L + r) % L = r := by
  constructor
  · rw [add_comm, Nat.add_mul_div_right _ _ hL, Nat.div_eq_of_lt hr, zero_add]
  · rw [add_comm, Nat.add_mul_mod_self_right, Nat.mod_eq_of_lt hr]

theorem pow_real_ne_zero (s : ℕ) : ((2 : ℝ) ^ s) ≠ 0 := by positivity

theorem stageVal_even (a : ℕ → ℂ) (sign : ℝ) (b s q r : ℕ)
    (hs : s + 1 ≤ b) (hr : r < 2 ^ s) :
    stageVal a sign b (s + 1) (q * 2 ^ (s + 1) + r) =
      stageVal a sign b s (q * 2 ^ (s + 1) + r) +
      stageVal a sign b s (q * 2 ^ (s + 1) + r + 2 ^ s) *
        cexpI ((r : ℝ) * (sign * 2 * Real.pi / ((2 ^ (s + 1) : ℕ) : ℝ))) := by
  have hLpos : 0 < 2 ^ s := Nat.pos_pow_of_pos s (by norm_num)
  have hlen_pos : 0 < 2 ^ (s + 1) := Nat.pos_pow_of_pos (s + 1) (by norm_num)
  set m := b - s - 1 with hm
  have hbs1 : b - (s + 1) = m := by omega
  have hbs : b - s = m + 1 := by omega
  have key3 : q * 2 ^ (s + 1) + r = 2 * q * 2 ^ s + r := by
    rw [pow_succ]
    ring
  have key5 : q * 2 ^ (s + 1) + r + 2 ^ s = (2 * q + 1) * 2 ^ s + r := by
    rw [pow_succ]
    ring
  have e1 : (q * 2 ^ (s + 1) + r) / 2 ^ (s + 1) = q :=
    (div_mod_block _ q r hlen_pos (lt_trans hr (by rw [pow_succ]; omega))).1
  have e2 : (q * 2 ^ (s + 1) + r) % 2 ^ (s + 1) = r :=
    (div_mod_block _ q r hlen_pos (lt_trans hr (by rw [pow_succ]; omega))).2
  have e3 : (q * 2 ^ (s + 1) + r) / 2 ^ s = 2 * q := by
    rw [key3]
    exact (div_mod_block _ (2 * q) r hLpos hr).1
  have e4 : (q * 2 ^ (s + 1) + r) % 2 ^ s = r := by
    rw [key3]
    exact (div_mod_block _ (2 * q) r hLpos hr).2
  have e5 : (q * 2 ^ (s + 1) + r + 2 ^ s) / 2 ^ s = 2 * q + 1 := by
    rw [key5]
    exact (div_mod_block _ (2 * q + 1) r hLpos hr).1
  have e6 : (q * 2 ^ (s + 1) + r + 2 ^ s) % 2 ^ s = r := by
    rw [key5]
    exact (div_mod_block _ (2 * q + 1) r hLpos hr).2
  unfold stageVal
  rw [e1, e2, e3, e4, e5, e6, hbs1, hbs, revBits_two_mul m q, revBits_two_mul_add_one m q]
  rw [show (2 : ℕ) ^ (s + 1) = 2 * 2 ^ s from by rw [pow_succ]; ring]
  rw [sum_range_even_odd (2 ^ s)]
  rw [Finset.sum_mul]
  congr 1
  · refine Finset.sum_congr rfl fun t ht => ?_
    have hidx : 2 * t * 2 ^ m + revBits m q = t * 2 ^ (m + 1) + revBits m q := by
      rw [pow_succ]
      ring
    have hexp : sign * (2 * Real.pi) * (r : ℝ) * ((2 * t : ℕ) : ℝ) / 2 ^ (s + 1) =
        sign * (2 * Real.pi) * (r : ℝ) * (t : ℝ) / 2 ^ s := by
      push_cast
      rw [pow_succ]
      field_simp
      ring
    rw [hidx, hexp]
  · refine Finset.sum_congr rfl fun t ht => ?_
    have hidx : (2 * t + 1) * 2 ^ m + revBits m q =
        t * 2 ^ (m + 1) + (2 ^ m + revBits m q) := by
      rw [pow_succ]
      ring
    have hexp : sign * (2 * Real.pi) * (r : ℝ) * ((2 * t + 1 : ℕ) : ℝ) / 2 ^ (s + 1) =
        sign * (2 * Real.pi) * (r : ℝ) * (t : ℝ) / 2 ^ s +
          (r : ℝ) * (sign * 2 * Real.pi / ((2 * 2 ^ s : ℕ) : ℝ)) := by
      push_cast
      rw [pow_succ]
      field_simp
      ring
    rw [hidx, hexp, cexpI_add]
    ring

theorem stageVal_odd (a : ℕ → ℂ) (sign : ℝ) (hsign : sign = 1 ∨ sign = -1)
    (b s q j : ℕ) (hs : s + 1 ≤ b) (hj : j < 2 ^ s) :
    stageVal a sign b (s + 1) (q * 2 ^ (s + 1) + 2 ^ s + j) =
      stageVal a sign b s (q * 2 ^ (s + 1) + j) -
      stageVal a sign b s (q * 2 ^ (s + 1) + 2 ^ s + j) *
        cexpI ((j : ℝ) * (sign * 2 * Real.pi / ((2 ^ (s + 1) : ℕ) : ℝ))) := by
  have hLpos : 0 < 2 ^ s := Nat.pos_pow_of_pos s (by norm_num)
  have hlen_pos : 0 < 2 ^ (s + 1) := Nat.pos_pow_of_pos (s + 1) (by norm_num)
  set m := b - s - 1 with hm
  have hbs1 : b - (s + 1) = m := by omega
  have hbs : b - s = m + 1 := by omega
  have keyP : q * 2 ^ (s + 1) + 2 ^ s + j = q * 2 ^ (s + 1) + (2 ^ s + j) := by omega
  have keyP2 : q * 2 ^ (s + 1) + 2 ^ s + j = (2 * q + 1) * 2 ^ s + j := by
    rw [pow_succ]
    ring
  have keyQ : q * 2 ^ (s + 1) + j = 2 * q * 2 ^ s + j := by
    rw [pow_succ]
    ring
  have hsj : 2 ^ s + j < 2 ^ (s + 1) := by
    rw [pow_succ]
    omega
  have e1 : (q * 2 ^ (s + 1) + 2 ^ s + j) / 2 ^ (s + 1) = q := by
    rw [keyP]
    exact (div_mod_block _ q (2 ^ s + j) hlen_pos hsj).1
  have e2 : (q * 2 ^ (s + 1) + 2 ^ s + j) % 2 ^ (s + 1) = 2 ^ s + j := by
    rw [keyP]
    exact (div_mod_block _ q (2 ^ s + j) hlen_pos hsj).2
  have e3 : (q * 2 ^ (s + 1) + 2 ^ s + j) / 2 ^ s = 2 * q + 1 := by
    rw [keyP2]
    exact (div_mod_block _ (2 * q + 1) j hLpos hj).1
  have e4 : (q * 2 ^ (s + 1) + 2 ^ s + j) % 2 ^ s = j := by
    rw [keyP2]
    exact (div_mod_block _ (2 * q + 1) j hLpos hj).2
  have e5 : (q * 2 ^ (s + 1) + j) / 2 ^ s = 2 * q := by
    rw [keyQ]
    exact (div_mod_block _ (2 * q) j hLpos hj).1
  have e6 : (q * 2 ^ (s + 1) + j) % 2 ^ s = j := by
    rw [keyQ]
    exact (div_mod_block _ (2 * q) j hLpos hj).2
  unfold stageVal
  rw [e1, e2, e3, e4, e5, e6, hbs1, hbs, revBits_two_mul m q, revBits_two_mul_add_one m q]
  rw [show (2 : ℕ) ^ (s + 1) = 2 * 2 ^ s from by rw [pow_succ]; ring]
  rw [sum_range_even_odd (2 ^ s)]
  rw [sub_eq_add_neg, Finset.sum_mul, ← Finset.sum_neg_distrib]
  congr 1
  · refine Finset.sum_congr rfl fun t ht => ?_
    have hidx : 2 * t * 2 ^ m + revBits m q = t * 2 ^ (m + 1) + revBits m q := by
      rw [pow_succ]
      ring
    have hexp : sign * (2 * Real.pi) * ((2 ^ s + j : ℕ) : ℝ) * ((2 * t : ℕ) : ℝ) / 2 ^ (s + 1) =
        sign * (2 * Real.pi) * (t : ℝ) + sign * (2 * Real.pi) * (j : ℝ) * (t : ℝ) / 2 ^ s := by
      push_cast
      rw [pow_succ]
      field_simp
      ring
    rw [hidx, hexp, cexpI_add, cexpI_sign_two_pi_nat sign hsign t, one_mul]
  · refine Finset.sum_congr rfl fun t ht => ?_
    have hidx : (2 * t + 1) * 2 ^ m + revBits m q =
        t * 2 ^ (m + 1) + (2 ^ m + revBits m q) := by
      rw [pow_succ]
      ring
    have hexp : sign * (2 * Real.pi) * ((2 ^ s + j : ℕ) : ℝ) *
          ((2 * t + 1 : ℕ) : ℝ) / 2 ^ (s + 1) =
        sign * (2 * Real.pi) * (t : ℝ) + (sign * Real.pi +
          (sign * (2 * Real.pi) * (j : ℝ) * (t : ℝ) / 2 ^ s +
            (j : ℝ) * (sign * 2 * Real.pi / ((2 * 2 ^ s : ℕ) : ℝ)))) := by
      push_cast
      rw [pow_succ]
      field_simp
      ring
    rw [hidx, hexp, cexpI_add, cexpI_add, cexpI_add,
      cexpI_sign_two_pi_nat sign hsign t, cexpI_sign_pi sign hsign]
    ring

theorem stagePass_step (a : ℕ → ℂ) (sign : ℝ) (hsign : sign = 1 ∨ sign = -1)
    (b s : ℕ) (hs : s + 1 ≤ b) (g : ℕ → ℂ)
    (hg : ∀ p, p < 2 ^ b → g p = stageVal a sign b s p) (p : ℕ) (hp : p < 2 ^ b) :
    stagePass (2 ^ b) sign (2 ^ (s + 1)) g p = stageVal a sign b (s + 1) p := by
  have hLpos : 0 < 2 ^ s := Nat.pos_pow_of_pos s (by norm_num)
  have hlen2L : (2 : ℕ) ^ (s + 1) = 2 * 2 ^ s := by rw [pow_succ]; ring
  have hlenpos : 0 < 2 * 2 ^ s := by omega
  have hunf : stagePass (2 ^ b) sign (2 ^ (s + 1)) g =
      blocksLoop (cexpI (sign * 2 * Real.pi / ((2 ^ (s + 1) : ℕ) : ℝ))) (2 ^ (s + 1))
        (2 ^ b / 2 ^ (s + 1)) 0 g := by
    show blocksLoop (⟨Real.cos (sign * 2 * Real.pi / ((2 ^ (s + 1) : ℕ) : ℝ)),
        Real.sin (sign * 2 * Real.pi / ((2 ^ (s + 1) : ℕ) : ℝ))⟩ : ℂ) _ _ 0 g = _
    rw [cexpI_mk]
  rw [hunf]
  set T := cexpI (sign * 2 * Real.pi / ((2 ^ (s + 1) : ℕ) : ℝ)) with hT
  set q := p / (2 ^ (s + 1)) with hq
  set r := p % (2 ^ (s + 1)) with hr
  have hkmul : 2 ^ b = 2 ^ (b - (s + 1)) * 2 ^ (s + 1) := by
    rw [← pow_add]
    congr 1
    omega
  have hkdiv : 2 ^ b / 2 ^ (s + 1) = 2 ^ (b - (s + 1)) := by
    rw [hkmul, Nat.mul_div_cancel _ (Nat.pos_pow_of_pos _ (by norm_num))]
  have hqlt : q < 2 ^ b / 2 ^ (s + 1) := by
    rw [hkdiv, hq, Nat.div_lt_iff_lt_mul (Nat.pos_pow_of_pos _ (by norm_num))]
    rw [← hkmul]
    exact hp
  have hrlt : r < 2 ^ (s + 1) := Nat.mod_lt _ (Nat.pos_pow_of_pos _ (by norm_num))
  have hpeq : p = 0 + q * 2 ^ (s + 1) + r := by
    rw [zero_add, hq, hr, Nat.div_add_mod']
  have hspec := blocksLoop_spec T (2 ^ s) hLpos (2 ^ b / 2 ^ (s + 1)) 0 g
  have hval := hspec.1 q r hqlt (by rw [← hlen2L]; exact hrlt)
  rw [← hlen2L] at hval
  have hp2 : 0 + q * 2 ^ (s + 1) + r = q * 2 ^ (s + 1) + r := by omega
  rw [show (0 : ℕ) + q * 2 ^ (s + 1) = q * 2 ^ (s + 1) from by omega] at hval
  have hpeq' : p = q * 2 ^ (s + 1) + r := hpeq.trans hp2
  -- the (q+1)-th block also lies inside the array
  have hblock : q * 2 ^ (s + 1) + 2 ^ (s + 1) ≤ 2 ^ b := by
    have h1 : q + 1 ≤ 2 ^ (b - (s + 1)) := by
      rw [← hkdiv]
      omega
    have h2 : (q + 1) * 2 ^ (s + 1) ≤ 2 ^ (b - (s + 1)) * 2 ^ (s + 1) :=
      Nat.mul_le_mul_right _ h1
    rw [add_mul, one_mul] at h2
    rw [← hkmul] at h2
    exact h2
  by_cases hcase : r < 2 ^ s
  · rw [hpeq', hval, if_pos hcase]
    have hgl : g (q * 2 ^ (s + 1) + r) = stageVal a sign b s (q * 2 ^ (s + 1) + r) := by
      apply hg
      omega
    have hgh : g (q * 2 ^ (s + 1) + r + 2 ^ s) =
        stageVal a sign b s (q * 2 ^ (s + 1) + r + 2 ^ s) := by
      apply hg
      have : r + 2 ^ s < 2 ^ (s + 1) := by
        rw [hlen2L]
        omega
      omega
    rw [hgl, hgh, hT, cexpI_pow]
    exact (stageVal_even a sign b s q r hs hcase).symm
  · have hj : r - 2 ^ s < 2 ^ s := by
      rw [hlen2L] at hrlt
      omega
    have hreq : r = 2 ^ s + (r - 2 ^ s) := by omega
    rw [hpeq', hval, if_neg hcase]
    have hgl : g (q * 2 ^ (s + 1) + (r - 2 ^ s)) =
        stageVal a sign b s (q * 2 ^ (s + 1) + (r - 2 ^ s)) := by
      apply hg
      omega
    have hgh : g (q * 2 ^ (s + 1) + r) = stageVal a sign b s (q * 2 ^ (s + 1) + r) := by
      apply hg
      omega
    rw [hgl, hgh, hT, cexpI_pow]
    have hodd := stageVal_odd a sign hsign b s q (r - 2 ^ s) hs hj
    have hre : q * 2 ^ (s + 1) + 2 ^ s + (r - 2 ^ s) = q * 2 ^ (s + 1) + r := by omega
    rw [hre] at hodd
    exact hodd.symm

theorem stageVal_zero (a : ℕ → ℂ) (sign : ℝ) (b p : ℕ) :
    stageVal a sign b 0 p = a (revBits b p) := by
  unfold stageVal
  rw [show (2 : ℕ) ^ 0 = 1 from rfl, Finset.sum_range_one]
  norm_num
  simp [cexpI_zero]

theorem stageVal_last (a : ℕ → ℂ) (sign : ℝ) (b p : ℕ) (hp : p < 2 ^ b) :
    stageVal a sign b b p = dft sign (2 ^ b) a p := by
  unfold stageVal dft
  refine Finset.sum_congr rfl fun t ht => ?_
  rw [Nat.div_eq_of_lt hp, Nat.mod_eq_of_lt hp, Nat.sub_self, revBits_zero]
  norm_num

theorem lenLoop_stages (a : ℕ → ℂ) (sign : ℝ) (hsign : sign = 1 ∨ sign = -1) (b : ℕ) :
    ∀ d s g, b - s = d → s ≤ b →
      (∀ p, p < 2 ^ b → g p = stageVal a sign b s p) →
      ∀ p, p < 2 ^ b → lenLoop (2 ^ b) sign (2 ^ (s + 1)) g p = stageVal a sign b b p := by
  intro d
  induction d with
  | zero =>
    intro s g hd hsb hg p hp
    have hsb' : s = b := by omega
    subst hsb'
    rw [lenLoop, dif_neg]
    · exact hg p hp
    · push_neg
      intro
      have : 2 ^ s < 2 ^ (s + 1) := by
        rw [pow_succ]
        have := Nat.pos_pow_of_pos s (show 0 < 2 by norm_num)
        omega
      omega
  | succ d ih =>
    intro s g hd hsb hg p hp
    have hs1 : s + 1 ≤ b := by omega
    rw [lenLoop, dif_pos]
    · have hlen : 2 ^ (s + 1) * 2 = 2 ^ (s + 1 + 1) := (pow_succ 2 (s + 1)).symm
      rw [hlen]
      exact ih (s + 1) (stagePass (2 ^ b) sign (2 ^ (s + 1)) g) (by omega) hs1
        (fun p' hp' => stagePass_step a sign hsign b s hs1 g hg p' hp') p hp
    · constructor
      · have := Nat.pos_pow_of_pos s (show 0 < 2 by norm_num)
        rw [pow_succ]
        omega
      · exact Nat.pow_le_pow_right (by norm_num) hs1

/-- Correctness of the iterative radix-2 FFT: on arrays of length `2^b` it
computes the direct DFT with sign `-1` for `Forward` and `+1` (scaled by
`1/n`) for `Inverse`. -/
theorem fft_radix2_dft (b : ℕ) (dir : FFTDirection) (a : ℕ → ℂ) (p : ℕ) (hp : p < 2 ^ b) :
    fft_radix2_inplace (2 ^ b) dir a p =
      (if dir = FFTDirection.Inverse then (((2 : ℕ) ^ b : ℂ))⁻¹ else 1) *
        dft (dsign dir) (2 ^ b) a p := by
  have hsign : dsign dir = 1 ∨ dsign dir = -1 := by
    cases dir
    · right
      rfl
    · left
      rfl
  rcases Nat.eq_zero_or_pos b with hb0 | hbpos
  · subst hb0
    have hp0 : p = 0 := by omega
    subst hp0
    have h1 : fft_radix2_inplace (2 ^ 0) dir a 0 = a 0 := by
      unfold fft_radix2_inplace
      rw [if_pos (by norm_num)]
    rw [h1]
    unfold dft
    rw [show (2 : ℕ) ^ 0 = 1 from rfl, Finset.sum_range_one]
    norm_num
    cases dir <;> simp [cexpI_zero]
  · have hn2 : ¬ (2 ^ b ≤ 1) := by
      push_neg
      calc 1 < 2 ^ 1 := by norm_num
        _ ≤ 2 ^ b := Nat.pow_le_pow_right (by norm_num) hbpos
    have hcore : lenLoop (2 ^ b) (dsign dir) 2 (bitrevPass (2 ^ b) a) p =
        dft (dsign dir) (2 ^ b) a p := by
      have hstep := lenLoop_stages a (dsign dir) hsign b b 0 (bitrevPass (2 ^ b) a)
        (by omega) (by omega)
        (fun p' hp' => by rw [bitrevPass_spec b hbpos a p' hp', stageVal_zero]) p hp
      norm_num at hstep
      exact hstep.trans (stageVal_last a (dsign dir) b p hp)
    unfold fft_radix2_inplace
    rw [if_neg hn2]
    cases dir with
    | Forward =>
      rw [if_neg (by decide), if_neg (by decide), one_mul]
      exact hcore
    | Inverse =>
      rw [if_pos rfl, if_pos rfl]
      show cscale (lenLoop (2 ^ b) (dsign FFTDirection.Inverse) 2
          (bitrevPass (2 ^ b) a) p) (1 / ((2 ^ b : ℕ) : ℝ)) = _
      rw [hcore, cscale_eq]
      push_cast
      ring

theorem land_pred_shift (m : ℕ) (hm : 0 < m) (h : (2 * m) &&& (2 * m - 1) = 0) :
    m &&& (m - 1) = 0 := by
  apply Nat.eq_of_testBit_eq
  intro i
  rw [Nat.testBit_and, Nat.zero_testBit]
  have hbit := congrArg (fun x => x.testBit (i + 1)) h
  simp only [Nat.testBit_and, Nat.zero_testBit] at hbit
  rw [Nat.testBit_add_one, Nat.testBit_add_one] at hbit
  have h1 : 2 * m / 2 = m := by omega
  have h2 : (2 * m - 1) / 2 = m - 1 := by omega
  rw [h1, h2] at hbit
  exact hbit

theorem is_pow2_iff (n : ℕ) : is_pow2 n = true ↔ ∃ b : ℕ, n = 2 ^ b := by
  rw [is_pow2, Bool.and_eq_true, bne_iff_ne, beq_iff_eq]
  constructor
  · rintro ⟨hne, hand⟩
    induction n using Nat.strong_induction_on with
    | _ n ih =>
      rcases Nat.lt_or_ge n 2 with h2 | h2
      · have : n = 1 := by omega
        exact ⟨0, by omega⟩
      · rcases Nat.even_or_odd n with ⟨m, hm⟩ | ⟨m, hm⟩
        · have hm2 : n = 2 * m := by omega
          have hmpos : 0 < m := by omega
          have hmand : m &&& (m - 1) = 0 := land_pred_shift m hmpos (hm2 ▸ hand)
          obtain ⟨b, hb⟩ := ih m (by omega) (by omega) hmand
          exact ⟨b + 1, by rw [hm2, hb, pow_succ]; ring⟩
        · exfalso
          have hmpos : 0 < m := by omega
          obtain ⟨i, hi⟩ := Nat.ne_zero_implies_bit_true (x := m) (by omega)
          have hnb : n.testBit (i + 1) = true := by
            rw [Nat.testBit_add_one, show n / 2 = m from by omega]
            exact hi
          have hn1b : (n - 1).testBit (i + 1) = true := by
            rw [Nat.testBit_add_one, show (n - 1) / 2 = m from by omega]
            exact hi
          have := congrArg (fun x => x.testBit (i + 1)) hand
          simp only [Nat.testBit_and, Nat.zero_testBit, hnb, hn1b] at this
          simp at this
  · rintro ⟨b, rfl⟩
    refine ⟨(Nat.pos_pow_of_pos b (by norm_num)).ne', ?_⟩
    apply Nat.eq_of_testBit_eq
    intro i
    rw [Nat.testBit_and, Nat.zero_testBit, Nat.testBit_two_pow_sub_one, Nat.testBit_two_pow]
    by_cases hib : b = i <;> simp [hib]

theorem le_bit_ceil (x : ℕ) : x ≤ bit_ceil x := Nat.le_pow_clog (by norm_num) x

theorem chirpFun_eq (dir : FFTDirection) (n k : ℕ) :
    chirpFun dir n k = cexpI (bsign dir * Real.pi * ((k * k : ℕ) : ℝ) / n) :=
  cexpI_mk _

theorem cconj_cexpI (θ : ℝ) : cconj (cexpI θ) = cexpI (-θ) := by
  apply Complex.ext
  · simp [cconj, cexpI_re, Real.cos_neg]
  · simp [cconj, cexpI_im, Real.sin_neg]

/-- Forward FFT, pointwise product, inverse FFT computes the circular
convolution (exactly the convolution pipeline of `fft_bluestein`). -/
theorem radix2_conv (μ : ℕ) (A B : ℕ → ℂ) (k : ℕ) (hk : k < 2 ^ μ) :
    fft_radix2_inplace (2 ^ μ) FFTDirection.Inverse
      (fun i => cmul (fft_radix2_inplace (2 ^ μ) FFTDirection.Forward A i)
        (fft_radix2_inplace (2 ^ μ) FFTDirection.Forward B i)) k =
    ∑ j ∈ Finset.range (2 ^ μ), A j * B (if j ≤ k then k - j else 2 ^ μ + k - j) := by
  have hmpos : 0 < 2 ^ μ := Nat.pos_pow_of_pos μ (by norm_num)
  have hmC : ((2 ^ μ : ℕ) : ℂ) ≠ 0 := by
    rw [Nat.cast_ne_zero]
    omega
  rw [fft_radix2_dft μ FFTDirection.Inverse _ k hk, if_pos rfl]
  have hterm : ∀ t ∈ Finset.range (2 ^ μ),
      (fun i => cmul (fft_radix2_inplace (2 ^ μ) FFTDirection.Forward A i)
        (fft_radix2_inplace (2 ^ μ) FFTDirection.Forward B i)) t *
        cexpI (dsign FFTDirection.Inverse * (2 * Real.pi) * k * t / (2 ^ μ : ℕ)) =
      ∑ j ∈ Finset.range (2 ^ μ), ∑ l ∈ Finset.range (2 ^ μ),
        A j * B l * cexpI (((((k : ℤ) - j - l) : ℤ) : ℝ) * (2 * Real.pi) * t / (2 ^ μ : ℕ)) := by
    intro t ht
    have htm : t < 2 ^ μ := Finset.mem_range.mp ht
    show cmul (fft_radix2_inplace (2 ^ μ) FFTDirection.Forward A t)
        (fft_radix2_inplace (2 ^ μ) FFTDirection.Forward B t) * _ = _
    rw [cmul_eq, fft_radix2_dft μ FFTDirection.Forward A t htm,
      fft_radix2_dft μ FFTDirection.Forward B t htm, if_neg (by decide), one_mul, one_mul]
    unfold dft
    rw [Finset.sum_mul_sum, Finset.sum_mul]
    refine Finset.sum_congr rfl fun j hj => ?_
    rw [Finset.sum_mul]
    refine Finset.sum_congr rfl fun l hl => ?_
    have hE : cexpI (dsign FFTDirection.Forward * (2 * Real.pi) * t * j / (2 ^ μ : ℕ)) *
        cexpI (dsign FFTDirection.Forward * (2 * Real.pi) * t * l / (2 ^ μ : ℕ)) *
        cexpI (dsign FFTDirection.Inverse * (2 * Real.pi) * k * t / (2 ^ μ : ℕ)) =
        cexpI (((((k : ℤ) - j - l) : ℤ) : ℝ) * (2 * Real.pi) * t / (2 ^ μ : ℕ)) := by
      rw [← cexpI_add, ← cexpI_add]
      congr 1
      have hmR : ((2 ^ μ : ℕ) : ℝ) ≠ 0 := by
        rw [Nat.cast_ne_zero]
        omega
      show dsign FFTDirection.Forward * (2 * Real.pi) * ↑t * ↑j / ((2 ^ μ : ℕ) : ℝ) +
          dsign FFTDirection.Forward * (2 * Real.pi) * ↑t * ↑l / ((2 ^ μ : ℕ) : ℝ) +
          dsign FFTDirection.Inverse * (2 * Real.pi) * ↑k * ↑t / ((2 ^ μ : ℕ) : ℝ) = _
      rw [show dsign FFTDirection.Forward = -1 from rfl,
        show dsign FFTDirection.Inverse = 1 from rfl]
      push_cast
      field_simp
      ring
    calc A j * cexpI (dsign FFTDirection.Forward * (2 * Real.pi) * ↑t * ↑j / ((2 ^ μ : ℕ) : ℝ)) *
          (B l * cexpI (dsign FFTDirection.Forward * (2 * Real.pi) * ↑t * ↑l / ((2 ^ μ : ℕ) : ℝ))) *
          cexpI (dsign FFTDirection.Inverse * (2 * Real.pi) * ↑k * ↑t / ((2 ^ μ : ℕ) : ℝ))
        = A j * B l *
          (cexpI (dsign FFTDirection.Forward * (2 * Real.pi) * ↑t * ↑j / ((2 ^ μ : ℕ) : ℝ)) *
           cexpI (dsign FFTDirection.Forward * (2 * Real.pi) * ↑t * ↑l / ((2 ^ μ : ℕ) : ℝ)) *
           cexpI (dsign FFTDirection.Inverse * (2 * Real.pi) * ↑k * ↑t / ((2 ^ μ : ℕ) : ℝ))) := by
          ring
      _ = A j * B l *
          cexpI (((((k : ℤ) - j - l) : ℤ) : ℝ) * (2 * Real.pi) * t / (2 ^ μ : ℕ)) := by
          rw [hE]
  unfold dft
  rw [Finset.sum_congr rfl hterm, Finset.sum_comm]
  have hswap : ∀ j ∈ Finset.range (2 ^ μ),
      ∑ t ∈ Finset.range (2 ^ μ), ∑ l ∈ Finset.range (2 ^ μ),
        A j * B l * cexpI (((((k : ℤ) - j - l) : ℤ) : ℝ) * (2 * Real.pi) * t / (2 ^ μ : ℕ)) =
      A j * (B (if j ≤ k then k - j else 2 ^ μ + k - j) * ((2 ^ μ : ℕ) : ℂ)) := by
    intro j hj
    have hjm : j < 2 ^ μ := Finset.mem_range.mp hj
    rw [Finset.sum_comm]
    set l₀ : ℕ := if j ≤ k then k - j else 2 ^ μ + k - j with hl₀
    have hl₀cases : (j ≤ k ∧ l₀ + j = k) ∨ (k < j ∧ l₀ + j = 2 ^ μ + k) := by
      rw [hl₀]
      by_cases hjk : j ≤ k
      · rw [if_pos hjk]
        left
        omega
      · rw [if_neg hjk]
        right
        omega
    have hl₀m : l₀ ∈ Finset.range (2 ^ μ) := by
      rw [Finset.mem_range]
      rcases hl₀cases with ⟨h1, h2⟩ | ⟨h1, h2⟩ <;> omega
    have hl₀lt : l₀ < 2 ^ μ := Finset.mem_range.mp hl₀m
    have hdvd₀ : ((2 ^ μ : ℕ) : ℤ) ∣ ((k : ℤ) - j - l₀) := by
      rcases hl₀cases with ⟨hj1, hsum⟩ | ⟨hj1, hsum⟩
      · have hz : (k : ℤ) - j - l₀ = 0 := by
          have hc : (l₀ : ℤ) + j = k := by exact_mod_cast hsum
          omega
        rw [hz]
        exact dvd_zero _
      · have hz : (k : ℤ) - j - l₀ = -((2 ^ μ : ℕ) : ℤ) := by
          have hc : (l₀ : ℤ) + j = ((2 ^ μ : ℕ) : ℤ) + k := by exact_mod_cast hsum
          omega
        rw [hz]
        exact (dvd_neg).mpr dvd_rfl
    have hstep : ∀ l ∈ Finset.range (2 ^ μ),
        ∑ t ∈ Finset.range (2 ^ μ),
          A j * B l * cexpI (((((k : ℤ) - j - l) : ℤ) : ℝ) * (2 * Real.pi) * t / (2 ^ μ : ℕ)) =
        A j * B l * (if ((2 ^ μ : ℕ) : ℤ) ∣ ((k : ℤ) - j - l) then ((2 ^ μ : ℕ) : ℂ) else 0) := by
      intro l hl
      rw [← Finset.mul_sum, sum_cexpI_orth (2 ^ μ) hmpos ((k : ℤ) - j - l)]
    rw [Finset.sum_congr rfl hstep]
    rw [Finset.sum_eq_single_of_mem l₀ hl₀m]
    · rw [if_pos hdvd₀]
      ring
    · intro l hl hne
      rw [if_neg, mul_zero]
      intro hdvd
      have hd0 : (l₀ : ℤ) - l = 0 := by
        have h2 : ((2 ^ μ : ℕ) : ℤ) ∣ ((l₀ : ℤ) - l) := by
          have h3 := dvd_sub hdvd hdvd₀
          have heq : ((k : ℤ) - j - l) - ((k : ℤ) - j - l₀) = (l₀ : ℤ) - l := by ring
          rw [heq] at h3
          exact h3
        refine Int.eq_zero_of_abs_lt_dvd h2 ?_
        have hlm : l < 2 ^ μ := Finset.mem_range.mp hl
        rw [abs_sub_lt_iff]
        constructor <;> omega
      exact hne (by omega)
  rw [Finset.sum_congr rfl hswap, Finset.mul_sum]
  refine Finset.sum_congr rfl fun j hj => ?_
  have h2C : ((2 : ℂ) ^ μ) ≠ 0 := pow_ne_zero μ two_ne_zero
  rw [Nat.cast_pow]
  push_cast
  field_simp
  ring

/-- Correctness of the code's Bluestein pipeline: it computes the direct
DFT **with the chirp's sign**, i.e. kernel `exp(+2 pi i j k / n)` for
`Forward` and `exp(-2 pi i j k / n)` (unscaled) for `Inverse`. -/
theorem fft_bluestein_dft (dir : FFTDirection) (n : ℕ) (hn : 0 < n) (μ : ℕ)
    (hm : 2 * n - 1 ≤ 2 ^ μ) (x : ℕ → ℂ) (k : ℕ) (hk : k < n) :
    fft_bluestein dir n (2 ^ μ) x k = dft (bsign dir) n x k := by
  have hkm : k < 2 ^ μ := by omega
  have hnR : ((n : ℕ) : ℝ) ≠ 0 := Nat.cast_ne_zero.mpr hn.ne'
  simp only [fft_bluestein]
  rw [cmul_eq, radix2_conv μ (bluesteinA dir n x) (Bfun dir n (2 ^ μ)) k hkm]
  have hsub : Finset.range n ⊆ Finset.range (2 ^ μ) := Finset.range_subset.mpr (by omega)
  have hres : ∑ j ∈ Finset.range (2 ^ μ), bluesteinA dir n x j *
        Bfun dir n (2 ^ μ) (if j ≤ k then k - j else 2 ^ μ + k - j) =
      ∑ j ∈ Finset.range n, bluesteinA dir n x j *
        Bfun dir n (2 ^ μ) (if j ≤ k then k - j else 2 ^ μ + k - j) := by
    refine (Finset.sum_subset hsub fun j hj hjn => ?_).symm
    have hjn' : ¬ j < n := by simpa using hjn
    simp only [bluesteinA]
    rw [if_neg hjn', zero_mul]
  rw [hres, Finset.sum_mul]
  unfold dft
  refine Finset.sum_congr rfl fun j hj => ?_
  have hjn : j < n := Finset.mem_range.mp hj
  simp only [bluesteinA]
  rw [if_pos hjn, cmul_eq]
  by_cases hjk : j ≤ k
  · rw [if_pos hjk]
    have hBval : Bfun dir n (2 ^ μ) (k - j) = cconj (chirpFun dir n (k - j)) := by
      simp only [Bfun]
      rw [if_pos (by omega)]
    rw [hBval, chirpFun_eq, chirpFun_eq, chirpFun_eq, cconj_cexpI]
    calc x j * cexpI (bsign dir * Real.pi * ((j * j : ℕ) : ℝ) / n) *
          cexpI (-(bsign dir * Real.pi * (((k - j) * (k - j) : ℕ) : ℝ) / n)) *
          cexpI (bsign dir * Real.pi * ((k * k : ℕ) : ℝ) / n)
        = x j * (cexpI (bsign dir * Real.pi * ((j * j : ℕ) : ℝ) / n) *
            cexpI (-(bsign dir * Real.pi * (((k - j) * (k - j) : ℕ) : ℝ) / n)) *
            cexpI (bsign dir * Real.pi * ((k * k : ℕ) : ℝ) / n)) := by ring
      _ = x j * cexpI (bsign dir * (2 * Real.pi) * k * j / n) := by
          rw [← cexpI_add, ← cexpI_add]
          congr 1
          rw [Nat.cast_mul, Nat.cast_mul, Nat.cast_mul, Nat.cast_sub hjk]
          field_simp
          ring
  · rw [if_neg hjk]
    have hkj : k < j := by omega
    have hidx1 : ¬ (2 ^ μ + k - j < n) := by omega
    have hsubval : 2 ^ μ - (2 ^ μ + k - j) = j - k := by omega
    have hBval : Bfun dir n (2 ^ μ) (2 ^ μ + k - j) = cconj (chirpFun dir n (j - k)) := by
      simp only [Bfun]
      rw [if_neg hidx1, hsubval, if_pos (by omega)]
    rw [hBval, chirpFun_eq, chirpFun_eq, chirpFun_eq, cconj_cexpI]
    calc x j * cexpI (bsign dir * Real.pi * ((j * j : ℕ) : ℝ) / n) *
          cexpI (-(bsign dir * Real.pi * (((j - k) * (j - k) : ℕ) : ℝ) / n)) *
          cexpI (bsign dir * Real.pi * ((k * k : ℕ) : ℝ) / n)
        = x j * (cexpI (bsign dir * Real.pi * ((j * j : ℕ) : ℝ) / n) *
            cexpI (-(bsign dir * Real.pi * (((j - k) * (j - k) : ℕ) : ℝ) / n)) *
            cexpI (bsign dir * Real.pi * ((k * k : ℕ) : ℝ) / n)) := by ring
      _ = x j * cexpI (bsign dir * (2 * Real.pi) * k * j / n) := by
          rw [← cexpI_add, ← cexpI_add]
          congr 1
          rw [Nat.cast_mul, Nat.cast_mul, Nat.cast_mul, Nat.cast_sub hkj.le]
          field_simp
          ring

theorem calcVec_foldl (coeffs : List ℂ) (t : ℝ) :
    ∀ (idx : List ℕ) (acc : List ℂ) (s : ℂ),
      idx.foldl (fun st n => (st.1 ++ [rotStep coeffs t n], st.2 + rotStep coeffs t n)) (acc, s) =
        (acc ++ idx.map (rotStep coeffs t), s + (idx.map (rotStep coeffs t)).sum) := by
  intro idx
  induction idx with
  | nil =>
    intro acc s
    simp
  | cons n rest ih =>
    intro acc s
    rw [List.foldl_cons, ih]
    simp [add_assoc]

theorem fourier_fft_eq (input : List ℂ) (hne : input ≠ []) :
    fourier_fft input = Except.ok
      ((if is_pow2 input.length then
          (List.range input.length).map
            (fft_radix2_inplace input.length FFTDirection.Forward (fun i => input.getD i 0))
        else
          (List.range input.length).map
            (fft_bluestein FFTDirection.Forward input.length
              (if is_pow2 input.length then 0 else bit_ceil (2 * input.length - 1))
              (fun i => input.getD i 0))).map
        (fun z => cscale z (1 / (input.length : ℝ)))) := by
  have hlen : input.length ≠ 0 := by
    intro h
    exact hne (List.length_eq_zero.mp h)
  unfold fourier_fft
  rw [if_neg (by simpa [List.isEmpty_iff] using hne)]
  unfold FFT.make FFT.makePlan
  rw [if_neg hlen]
  dsimp only
  unfold FFTplan.execute
  rw [if_neg (by simp)]

theorem fourier_fft_ok_length (input coeffs : List ℂ)
    (h : fourier_fft input = Except.ok coeffs) : coeffs.length = input.length := by
  rcases List.eq_nil_or_concat input with rfl | ⟨_, _, hcons⟩
  · unfold fourier_fft at h
    simp at h
    subst h
    rfl
  · have hne : input ≠ [] := by
      rw [hcons]
      simp
    rw [fourier_fft_eq input hne] at h
    have := Except.ok.inj h
    rw [← this]
    split <;> simp

/-- C3: the Transform Engine raises exactly when prepared with size 0 or
executed with mismatched input/output lengths; every positive size with
matching lengths executes without raising. -/
theorem C3_transform_error_iff (n : ℕ) (dir : FFTDirection) :
    (n = 0 → FFT.make n dir = Except.error "FFT size must be > 0") ∧
    (0 < n → ∃ plan : FFTplan, FFT.make n dir = Except.ok plan ∧ plan.n = n ∧
      ∀ inp out : List ℂ,
        ((∃ e, plan.execute inp out = Except.error e) ↔
          (inp.length ≠ n ∨ out.length ≠ n)) ∧
        (inp.length = n → out.length = n →
          ∃ res, plan.execute inp out = Except.ok res)) := by
  constructor
  · intro h0
    unfold FFT.make
    rw [if_pos h0]
  · intro hpos
    refine ⟨FFT.makePlan n dir, ?_, rfl, ?_⟩
    · unfold FFT.make
      rw [if_neg (by omega)]
    · intro inp out
      constructor
      · constructor
        · rintro ⟨e, he⟩
          by_contra hcon
          push_neg at hcon
          unfold FFTplan.execute at he
          simp only [FFT.makePlan] at he
          rw [if_neg (by push_neg; exact hcon)] at he
          exact Except.noConfusion he
        · intro hmm
          refine ⟨"FFT::execute: size mismatch", ?_⟩
          unfold FFTplan.execute
          simp only [FFT.makePlan]
          rw [if_pos hmm]
      · intro h1 h2
        unfold FFTplan.execute
        simp only [FFT.makePlan]
        rw [if_neg (by push_neg; exact ⟨h1, h2⟩)]
        exact ⟨_, rfl⟩

theorem C3_transform_error_iff_witness :
    (FFT.make 0 FFTDirection.Forward = Except.error "FFT size must be > 0") ∧
    (∃ plan : FFTplan, FFT.make 2 FFTDirection.Forward = Except.ok plan ∧ plan.n = 2 ∧
      ∀ inp out : List ℂ,
        ((∃ e, plan.execute inp out = Except.error e) ↔
          (inp.length ≠ 2 ∨ out.length ≠ 2)) ∧
        (inp.length = 2 → out.length = 2 →
          ∃ res, plan.execute inp out = Except.ok res)) :=
  ⟨(C3_transform_error_iff 0 FFTDirection.Forward).1 rfl,
   (C3_transform_error_iff 2 FFTDirection.Forward).2 (by norm_num)⟩

/-- C8: with an empty stored coefficient sequence (and the matching empty
index list produced by `calculateCoefficients`), `calculateVectors` returns
an empty vector list and tip `(0,0)` at every time `t`, and does not raise. -/
theorem C8_empty_evaluate (t : ℝ) :
    calculateVectors [] [] t = Except.ok ([], 0) := by
  unfold calculateVectors
  simp

/-- C10: `calculateCoefficients` on empty input never raises (the FFT
wrapper returns `ok []` before the engine, which rejects size 0, is ever
constructed), leaves both the coefficient list and the sorted index list
empty, and a subsequent `calculateVectors` takes the `N = 0` path. -/
theorem C10_empty_input (coeffs : List ℂ) (idx : List ℕ)
    (h : CalcCoefficients [] coeffs idx) :
    fourier_fft [] = Except.ok [] ∧ coeffs = [] ∧ idx = [] ∧
      ∀ t : ℝ, calculateVectors coeffs idx t = Except.ok ([], 0) := by
  obtain ⟨hfft, hperm, _⟩ := h
  have h0 : fourier_fft [] = Except.ok [] := by
    unfold fourier_fft
    simp
  have hc : coeffs = [] := by
    rw [h0] at hfft
    exact (Except.ok.inj hfft).symm
  subst hc
  have hi : idx = [] := by
    have := hperm
    simp [List.range_zero] at this
    exact this
  subst hi
  exact ⟨h0, rfl, rfl, fun t => C8_empty_evaluate t⟩

theorem C10_empty_input_witness :
    fourier_fft [] = Except.ok [] ∧ ([] : List ℂ) = [] ∧ ([] : List ℕ) = [] ∧
      ∀ t : ℝ, calculateVectors [] [] t = Except.ok ([], 0) :=
  C10_empty_input [] []
    ⟨by unfold fourier_fft; simp, by simp [IsSortedPermOf]⟩

/-- C4: for a consistent stored state (the index list a permutation of
`[0, N)`, as `calculateCoefficients` guarantees) with `N > 0`,
`calculateVectors` returns exactly the rotated coefficients in sorted
order, and the tip is the sum of all `N` rotated vectors. -/
theorem C4_calculate_vectors (coeffs : List ℂ) (idx : List ℕ) (t : ℝ)
    (hN : 0 < coeffs.length) (hperm : idx.Perm (List.range coeffs.length)) :
    calculateVectors coeffs idx t =
      Except.ok (idx.map (rotStep coeffs t),
        ((List.range coeffs.length).map (rotStep coeffs t)).sum) := by
  have hlen : idx.length = coeffs.length := by
    rw [hperm.length_eq, List.length_range]
  unfold calculateVectors
  rw [if_neg (by omega), if_neg (by omega), calcVec_foldl]
  simp only [List.nil_append, zero_add]
  have hsum : (idx.map (rotStep coeffs t)).sum =
      (((List.range coeffs.length)).map (rotStep coeffs t)).sum :=
    (hperm.map (rotStep coeffs t)).sum_eq
  rw [hsum]

theorem C4_calculate_vectors_witness :
    calculateVectors [⟨1, 0⟩] [0] 0 =
      Except.ok (([0] : List ℕ).map (rotStep [⟨1, 0⟩] 0),
        ((List.range 1).map (rotStep [⟨1, 0⟩] 0)).sum) :=
  C4_calculate_vectors [⟨1, 0⟩] [0] 0 (by norm_num) (by simp [List.range_succ])

/-- C2 (amended): after `calculateCoefficients` on an input of `N` points,
the sorted index order is a permutation of `[0, N)` on which the squared
coefficient magnitudes are non-increasing.  (The tie-breaking order among
equal magnitudes is *not* specified: the code uses `std::ranges::sort`,
which is not stable.) -/
theorem C2_energy_order_amended (input coeffs : List ℂ) (idx : List ℕ)
    (h : CalcCoefficients input coeffs idx) :
    idx.Perm (List.range input.length) ∧
    idx.Pairwise (fun i j => length_sq (coeffs.getD j 0) ≤ length_sq (coeffs.getD i 0)) := by
  obtain ⟨hfft, hperm, hpair⟩ := h
  have hlen := fourier_fft_ok_length input coeffs hfft
  constructor
  · rw [← hlen]
    exact hperm
  · refine hpair.imp ?_
    intro i j hij
    exact not_lt.mp hij

theorem fft_radix2_one (dir : FFTDirection) (a : ℕ → ℂ) :
    fft_radix2_inplace 1 dir a = a := by
  unfold fft_radix2_inplace
  rw [if_pos (by norm_num)]

theorem C2_energy_order_amended_witness :
    ([0] : List ℕ).Perm (List.range ([⟨1, 0⟩] : List ℂ).length) ∧
    ([0] : List ℕ).Pairwise (fun i j =>
      length_sq (([⟨1, 0⟩] : List ℂ).getD j 0) ≤ length_sq (([⟨1, 0⟩] : List ℂ).getD i 0)) := by
  refine C2_energy_order_amended [⟨1, 0⟩] [⟨1, 0⟩] [0] ⟨?_, ?_, ?_⟩
  · rw [fourier_fft_eq [⟨1, 0⟩] (by simp)]
    have h1 : ([⟨1, 0⟩] : List ℂ).length = 1 := rfl
    rw [h1, show is_pow2 1 = true from rfl]
    simp only [if_true]
    rw [show List.range 1 = [0] from rfl]
    simp only [List.map_cons, List.map_nil, fft_radix2_one]
    have hv : cscale (([⟨1, 0⟩] : List ℂ).getD 0 0) (1 / ((1 : ℕ) : ℝ)) = (⟨1, 0⟩ : ℂ) := by
      apply Complex.ext <;> simp [cscale, List.getD]
    rw [hv]
  · have h1 : ([⟨1, 0⟩] : List ℂ).length = 1 := rfl
    rw [h1, show List.range 1 = [0] from rfl]
  · simp

theorem dft_neg_one_two (x : ℕ → ℂ) :
    dft (-1) 2 x 0 = x 0 + x 1 ∧ dft (-1) 2 x 1 = x 0 - x 1 := by
  constructor
  · unfold dft
    rw [Finset.sum_range_succ, Finset.sum_range_one]
    norm_num [cexpI_zero]
  · unfold dft
    rw [Finset.sum_range_succ, Finset.sum_range_one]
    have h0 : (-1 : ℝ) * (2 * Real.pi) * ((1 : ℕ) : ℝ) * ((0 : ℕ) : ℝ) / ((2 : ℕ) : ℝ) = 0 := by
      push_cast
      ring
    have h1 : (-1 : ℝ) * (2 * Real.pi) * ((1 : ℕ) : ℝ) * ((1 : ℕ) : ℝ) / ((2 : ℕ) : ℝ) =
        -Real.pi := by
      push_cast
      field_simp
      ring
    rw [h0, h1, cexpI_zero, cexpI_neg_pi]
    ring

theorem fourier_fft_pair :
    fourier_fft [1, Complex.I] = Except.ok [⟨1/2, 1/2⟩, ⟨1/2, -1/2⟩] := by
  rw [fourier_fft_eq [1, Complex.I] (by simp)]
  have h2 : ([1, Complex.I] : List ℂ).length = 2 := rfl
  rw [h2, show is_pow2 2 = true from rfl]
  simp only [if_true]
  have hrw : ∀ k, k < 2 → fft_radix2_inplace 2 FFTDirection.Forward
      (fun i => ([1, Complex.I] : List ℂ).getD i 0) k =
      dft (-1) 2 (fun i => ([1, Complex.I] : List ℂ).getD i 0) k := by
    intro k hk
    have h := fft_radix2_dft 1 FFTDirection.Forward
      (fun i => ([1, Complex.I] : List ℂ).getD i 0) k (by simpa using hk)
    rw [if_neg (by decide), one_mul, show (2 : ℕ) ^ 1 = 2 from rfl,
      show dsign FFTDirection.Forward = -1 from rfl] at h
    exact h
  have hd := dft_neg_one_two (fun i => ([1, Complex.I] : List ℂ).getD i 0)
  rw [show (List.range 2) = [0, 1] from rfl]
  simp only [List.map_cons, List.map_nil]
  rw [hrw 0 (by norm_num), hrw 1 (by norm_num), hd.1, hd.2]
  rw [show ([1, Complex.I] : List ℂ).getD 0 0 = 1 from rfl,
    show ([1, Complex.I] : List ℂ).getD 1 0 = Complex.I from rfl]
  congr 2
  · apply Complex.ext <;> simp [cscale] <;> norm_num
  · congr 1
    apply Complex.ext <;> simp [cscale] <;> norm_num

/-- C2 counterexample: on the input `[(1,0), (0,1)]` both coefficients have
squared magnitude `1/2`, and the index order `[1, 0]` is a legitimate
`std::ranges::sort` result (sorted, a permutation of `[0, 2)`) that
violates the claimed stable tie-break. -/
theorem C2_stability_counterexample :
    CalcCoefficients [1, Complex.I] [⟨1/2, 1/2⟩, ⟨1/2, -1/2⟩] [1, 0] ∧
    ¬ StableTies [⟨1/2, 1/2⟩, ⟨1/2, -1/2⟩] [1, 0] := by
  constructor
  · refine ⟨fourier_fft_pair, ?_, ?_⟩
    · decide
    · refine List.Pairwise.cons ?_ (List.Pairwise.cons (by simp) List.Pairwise.nil)
      intro j hj
      have hj0 : j = 0 := by simpa using hj
      subst hj0
      show ¬ coeffLess _ 0 1
      simp only [coeffLess, length_sq, List.getD]
      norm_num
  · intro h
    have := h 0 1 (by norm_num) (by norm_num) (by norm_num [length_sq])
    norm_num at this

theorem getD_map_range (f : ℕ → ℂ) (n i : ℕ) (h : i < n) :
    ((List.range n).map f).getD i 0 = f i := by
  rw [List.getD_eq_getElem?_getD, List.getElem?_map, List.getElem?_range h]
  rfl

theorem dft_congr (s : ℝ) (n : ℕ) (f g : ℕ → ℂ) (hfg : ∀ i, i < n → f i = g i) (k : ℕ) :
    dft s n f k = dft s n g k := by
  unfold dft
  exact Finset.sum_congr rfl fun t ht => by rw [hfg t (Finset.mem_range.mp ht)]

theorem dft_mul_const (s : ℝ) (n : ℕ) (f : ℕ → ℂ) (c : ℂ) (k : ℕ) :
    dft s n (fun i => f i * c) k = dft s n f k * c := by
  unfold dft
  rw [Finset.sum_mul]
  exact Finset.sum_congr rfl fun t _ => by ring

/-- Executing a non-power-of-two plan computes the unscaled DFT with the
chirp's sign (`+1` for Forward, `-1` for Inverse). -/
theorem execute_nonpow2_eq (n : ℕ) (hn : 0 < n) (hnp : is_pow2 n = false)
    (dir : FFTDirection) (inp out : List ℂ) (h1 : inp.length = n) (h2 : out.length = n) :
    (FFT.makePlan n dir).execute inp out =
      Except.ok ((List.range n).map (dft (bsign dir) n (fun i => inp.getD i 0))) := by
  unfold FFTplan.execute
  simp only [FFT.makePlan, hnp, Bool.false_eq_true, if_false]
  rw [if_neg (by push_neg; exact ⟨h1, h2⟩)]
  congr 1
  refine List.map_congr_left fun k hk => ?_
  have hk' : k < n := List.mem_range.mp hk
  have hceil : bit_ceil (2 * n - 1) = 2 ^ Nat.clog 2 (2 * n - 1) := rfl
  rw [hceil]
  exact fft_bluestein_dft dir n hn (Nat.clog 2 (2 * n - 1)) (le_bit_ceil (2 * n - 1)) _ k hk'

/-- Executing a power-of-two plan computes the DFT with the radix-2 twiddle
sign (`-1` Forward, `+1` Inverse) with the `1/n` scaling on Inverse. -/
theorem execute_pow2_eq (b : ℕ) (dir : FFTDirection) (inp out : List ℂ)
    (h1 : inp.length = 2 ^ b) (h2 : out.length = 2 ^ b) :
    (FFT.makePlan (2 ^ b) dir).execute inp out =
      Except.ok ((List.range (2 ^ b)).map (fun k =>
        (if dir = FFTDirection.Inverse then (((2 : ℕ) ^ b : ℂ))⁻¹ else 1) *
          dft (dsign dir) (2 ^ b) (fun i => inp.getD i 0) k)) := by
  have hp2 : is_pow2 (2 ^ b) = true := (is_pow2_iff _).mpr ⟨b, rfl⟩
  unfold FFTplan.execute
  simp only [FFT.makePlan, hp2, if_true]
  rw [if_neg (by push_neg; exact ⟨h1, h2⟩)]
  congr 1
  refine List.map_congr_left fun k hk => ?_
  exact fft_radix2_dft b dir (fun i => inp.getD i 0) k (List.mem_range.mp hk)

/-- C5 (amended): for every size `n` that is not a power of two, the engine
runs the Bluestein pipeline exactly as described, but the result is the
direct DFT with the **chirp's** sign — the conjugate of the spec's
reference convention (`bsign dir = -(dsign dir)`) — and with no `1/n`
scaling in the Inverse direction. -/
theorem C5_bluestein_amended (n : ℕ) (hn : 0 < n) (hnp : is_pow2 n = false)
    (dir : FFTDirection) (inp out : List ℂ) (h1 : inp.length = n) (h2 : out.length = n) :
    (FFT.makePlan n dir).execute inp out =
      Except.ok ((List.range n).map (dft (bsign dir) n (fun i => inp.getD i 0))) ∧
    bsign dir = -(dsign dir) := by
  refine ⟨execute_nonpow2_eq n hn hnp dir inp out h1 h2, ?_⟩
  cases dir <;> norm_num [bsign, dsign]

theorem C5_bluestein_amended_witness :
    ((FFT.makePlan 3 FFTDirection.Forward).execute [0, 1, 0] [0, 0, 0] =
      Except.ok ((List.range 3).map
        (dft (bsign FFTDirection.Forward) 3 (fun i => ([0, 1, 0] : List ℂ).getD i 0)))) ∧
    bsign FFTDirection.Forward = -(dsign FFTDirection.Forward) :=
  C5_bluestein_amended 3 (by norm_num) (by decide) FFTDirection.Forward
    [0, 1, 0] [0, 0, 0] rfl rfl

theorem dft_e1_three (s : ℝ) :
    dft s 3 (fun i => ([0, 1, 0] : List ℂ).getD i 0) 1 = cexpI (s * (2 * Real.pi) / 3) := by
  unfold dft
  rw [Finset.sum_range_succ, Finset.sum_range_succ, Finset.sum_range_one]
  rw [show (fun i => ([0, 1, 0] : List ℂ).getD i 0) 0 = 0 from rfl,
    show (fun i => ([0, 1, 0] : List ℂ).getD i 0) 1 = 1 from rfl,
    show (fun i => ([0, 1, 0] : List ℂ).getD i 0) 2 = 0 from rfl]
  simp only [zero_mul, one_mul, zero_add, add_zero]
  congr 1
  push_cast
  ring

/-- C5 counterexample: at size 3 (not a power of two) on the input
`[(0,0),(1,0),(0,0)]`, the engine's Forward output at bin 1 differs from
the spec's direct DFT reference by much more than the stated `1e-4`
tolerance (the distance is `sqrt 3`). -/
theorem C5_bluestein_counterexample :
    ∃ res : List ℂ,
      (FFT.makePlan 3 FFTDirection.Forward).execute [0, 1, 0] [0, 0, 0] = Except.ok res ∧
      Complex.abs (res.getD 1 0 -
        dftReference FFTDirection.Forward 3 (fun i => ([0, 1, 0] : List ℂ).getD i 0) 1) >
        1e-4 := by
  refine ⟨_, execute_nonpow2_eq 3 (by norm_num) (by decide) FFTDirection.Forward
    [0, 1, 0] [0, 0, 0] rfl rfl, ?_⟩
  rw [getD_map_range _ 3 1 (by norm_num)]
  unfold dftReference
  rw [show bsign FFTDirection.Forward = 1 from rfl,
    show dsign FFTDirection.Forward = -1 from rfl, dft_e1_three 1, dft_e1_three (-1)]
  have him : (cexpI (1 * (2 * Real.pi) / 3) - cexpI (-1 * (2 * Real.pi) / 3)).im =
      2 * Real.sin (2 * Real.pi / 3) := by
    rw [Complex.sub_im, cexpI_im, cexpI_im,
      show (1 : ℝ) * (2 * Real.pi) / 3 = 2 * Real.pi / 3 from by ring,
      show (-1 : ℝ) * (2 * Real.pi) / 3 = -(2 * Real.pi / 3) from by ring, Real.sin_neg]
    ring
  have hsin : Real.sin (2 * Real.pi / 3) = Real.sqrt 3 / 2 := by
    rw [show 2 * Real.pi / 3 = Real.pi - Real.pi / 3 from by ring, Real.sin_pi_sub,
      Real.sin_pi_div_three]
  have habs : Real.sqrt 3 ≤
      Complex.abs (cexpI (1 * (2 * Real.pi) / 3) - cexpI (-1 * (2 * Real.pi) / 3)) := by
    have h := Complex.abs_im_le_abs (cexpI (1 * (2 * Real.pi) / 3) -
      cexpI (-1 * (2 * Real.pi) / 3))
    rw [him, hsin, show (2 : ℝ) * (Real.sqrt 3 / 2) = Real.sqrt 3 from by ring,
      abs_eq_self.mpr (Real.sqrt_nonneg 3)] at h
    exact h
  have h1 : (1 : ℝ) ≤ Real.sqrt 3 := by
    rw [show (1 : ℝ) = Real.sqrt 1 from (Real.sqrt_one).symm]
    exact Real.sqrt_le_sqrt (by norm_num)
  have : (1e-4 : ℝ) < 1 := by norm_num
  linarith

/-- Inverse-after-forward for a non-power-of-two size multiplies by `n`:
the Bluestein Inverse applies no `1/n` scaling, so the spec's round-trip
formula `inverse(forward(x)/N)·N` yields `N·x`, not `x`. -/
theorem roundtrip_nonpow2 (n : ℕ) (hn : 0 < n) (hnp : is_pow2 n = false) (x : List ℂ)
    (hx : x.length = n) :
    ∃ X Y : List ℂ,
      (FFT.makePlan n FFTDirection.Forward).run x = Except.ok X ∧
      (FFT.makePlan n FFTDirection.Inverse).run
        (X.map (fun z => cscale z (1 / (n : ℝ)))) = Except.ok Y ∧
      ∀ l, l < n → (Y.map (fun z => cscale z ((n : ℝ)))).getD l 0 =
        (n : ℂ) * x.getD l 0 := by
  have hnC : ((n : ℕ) : ℂ) ≠ 0 := by
    rw [Nat.cast_ne_zero]
    omega
  have hnR : ((n : ℕ) : ℝ) ≠ 0 := by
    rw [Nat.cast_ne_zero]
    omega
  set gx : ℕ → ℂ := fun i => x.getD i 0 with hgx
  have hF : (FFT.makePlan n FFTDirection.Forward).run x =
      Except.ok ((List.range n).map (dft 1 n gx)) := by
    unfold FFTplan.run
    rw [execute_nonpow2_eq n hn hnp FFTDirection.Forward x _ hx (by simp [hx])]
    rfl
  set X : List ℂ := (List.range n).map (dft 1 n gx) with hX
  have hXlen : X.length = n := by
    rw [hX, List.length_map, List.length_range]
  set X' : List ℂ := X.map (fun z => cscale z (1 / (n : ℝ))) with hX'
  have hX'len : X'.length = n := by
    rw [hX', List.length_map, hXlen]
  have hI : (FFT.makePlan n FFTDirection.Inverse).run X' =
      Except.ok ((List.range n).map (dft (-1) n (fun i => X'.getD i 0))) := by
    unfold FFTplan.run
    rw [execute_nonpow2_eq n hn hnp FFTDirection.Inverse X' _ hX'len (by simp [hX'len])]
    rfl
  refine ⟨X, (List.range n).map (dft (-1) n (fun i => X'.getD i 0)), hF, hI, ?_⟩
  intro l hl
  rw [List.map_map, getD_map_range _ n l hl]
  show cscale (dft (-1) n (fun i => X'.getD i 0) l) ((n : ℝ)) = (n : ℂ) * gx l
  have hXi : ∀ i, i < n → X'.getD i 0 = dft 1 n gx i * ((1 / (n : ℝ) : ℝ) : ℂ) := by
    intro i hi
    rw [hX', hX, List.map_map, getD_map_range _ n i hi]
    exact cscale_eq _ _
  rw [dft_congr (-1) n _ (fun i => dft 1 n gx i * ((1 / (n : ℝ) : ℝ) : ℂ)) hXi l,
    dft_mul_const]
  have hdd := dft_dft 1 (Or.inl rfl) n hn gx l hl
  rw [hdd, cscale_eq]
  push_cast
  field_simp
  ring

/-- C6 counterexample: at size `N = 3` on input `x = [(1,0),(0,0),(0,0)]`,
the spec's round-trip formula `inverse(forward(x)/N)·N` returns `3·x`; its
first component is `3`, which differs from `x₀ = 1` by `2`, far beyond any
stated tolerance. -/
theorem C6_roundtrip_counterexample :
    ∃ X Y : List ℂ,
      (FFT.makePlan 3 FFTDirection.Forward).run [1, 0, 0] = Except.ok X ∧
      (FFT.makePlan 3 FFTDirection.Inverse).run
        (X.map (fun z => cscale z (1 / ((3 : ℕ) : ℝ)))) = Except.ok Y ∧
      Complex.abs ((Y.map (fun z => cscale z ((3 : ℕ) : ℝ))).getD 0 0 -
        ([1, 0, 0] : List ℂ).getD 0 0) > 1e-4 := by
  obtain ⟨X, Y, hF, hI, hval⟩ := roundtrip_nonpow2 3 (by norm_num) (by decide) [1, 0, 0] rfl
  refine ⟨X, Y, hF, hI, ?_⟩
  rw [hval 0 (by norm_num), show ([1, 0, 0] : List ℂ).getD 0 0 = 1 from rfl]
  rw [show ((3 : ℕ) : ℂ) * 1 - 1 = 2 from by push_cast; ring, Complex.abs_two]
  norm_num

theorem getD_eq_getElem (l : List ℂ) (i : ℕ) (h : i < l.length) : l.getD i 0 = l[i] := by
  rw [List.getD_eq_getElem?_getD, List.getElem?_eq_getElem h]
  rfl

/-- C6 (amended): for every **power-of-two** `N` the round trip
`inverse(forward(x)/N)·N` reconstructs `x` exactly (in the real-number
model), and the Inverse direction scales every output component by `1/N`.
(For non-powers of two the Inverse applies no `1/N` scaling and the round
trip returns `N·x` instead; see the counterexample.) -/
theorem C6_roundtrip_amended (b : ℕ) (x : List ℂ) (hx : x.length = 2 ^ b) :
    ∃ X Y : List ℂ,
      (FFT.makePlan (2 ^ b) FFTDirection.Forward).run x = Except.ok X ∧
      (FFT.makePlan (2 ^ b) FFTDirection.Inverse).run
        (X.map (fun z => cscale z (1 / ((2 ^ b : ℕ) : ℝ)))) = Except.ok Y ∧
      Y.map (fun z => cscale z (((2 ^ b : ℕ) : ℝ))) = x ∧
      (∀ inp out : List ℂ, inp.length = 2 ^ b → out.length = 2 ^ b →
        (FFT.makePlan (2 ^ b) FFTDirection.Inverse).execute inp out =
          Except.ok ((List.range (2 ^ b)).map (fun k =>
            (((2 : ℕ) ^ b : ℂ))⁻¹ * dft 1 (2 ^ b) (fun i => inp.getD i 0) k))) := by
  have hn : 0 < 2 ^ b := Nat.pos_pow_of_pos b (by norm_num)
  have hnC : (((2 : ℕ) ^ b : ℕ) : ℂ) ≠ 0 := by
    rw [Nat.cast_ne_zero]
    omega
  have hnR : (((2 : ℕ) ^ b : ℕ) : ℝ) ≠ 0 := by
    rw [Nat.cast_ne_zero]
    omega
  set gx : ℕ → ℂ := fun i => x.getD i 0 with hgx
  have hinv : ∀ inp out : List ℂ, inp.length = 2 ^ b → out.length = 2 ^ b →
      (FFT.makePlan (2 ^ b) FFTDirection.Inverse).execute inp out =
        Except.ok ((List.range (2 ^ b)).map (fun k =>
          (((2 : ℕ) ^ b : ℂ))⁻¹ * dft 1 (2 ^ b) (fun i => inp.getD i 0) k)) := by
    intro inp out h1 h2
    have h0 := execute_pow2_eq b FFTDirection.Inverse inp out h1 h2
    simp only [if_pos (show FFTDirection.Inverse = FFTDirection.Inverse from rfl),
      dsign] at h0
    exact h0
  have hF0 := execute_pow2_eq b FFTDirection.Forward x (List.replicate x.length 0) hx
    (by simp [hx])
  simp only [if_neg (show FFTDirection.Forward ≠ FFTDirection.Inverse from by decide),
    one_mul, dsign] at hF0
  set X : List ℂ := (List.range (2 ^ b)).map
    (fun k => dft (-1) (2 ^ b) gx k) with hX
  have hF : (FFT.makePlan (2 ^ b) FFTDirection.Forward).run x = Except.ok X := by
    unfold FFTplan.run
    exact hF0
  have hXlen : X.length = 2 ^ b := by
    rw [hX, List.length_map, List.length_range]
  set X' : List ℂ := X.map (fun z => cscale z (1 / ((2 ^ b : ℕ) : ℝ))) with hX'
  have hX'len : X'.length = 2 ^ b := by
    rw [hX', List.length_map, hXlen]
  have hI0 := hinv X' (List.replicate X'.length 0) hX'len (by simp [hX'len])
  set Y : List ℂ := (List.range (2 ^ b)).map
    (fun k => (((2 : ℕ) ^ b : ℂ))⁻¹ * dft 1 (2 ^ b) (fun i => X'.getD i 0) k) with hY
  have hI : (FFT.makePlan (2 ^ b) FFTDirection.Inverse).run X' = Except.ok Y := by
    unfold FFTplan.run
    exact hI0
  refine ⟨X, Y, hF, hI, ?_, hinv⟩
  have hpt : ∀ l, l < 2 ^ b →
      cscale (Y.getD l 0) (((2 ^ b : ℕ) : ℝ)) = gx l := by
    intro l hl
    rw [hY, getD_map_range _ _ l hl]
    have hXi : ∀ i, i < 2 ^ b →
        X'.getD i 0 = dft (-1) (2 ^ b) gx i * ((1 / ((2 ^ b : ℕ) : ℝ) : ℝ) : ℂ) := by
      intro i hi
      rw [hX', hX, List.map_map, getD_map_range _ _ i hi]
      exact cscale_eq _ _
    rw [dft_congr 1 (2 ^ b) _
      (fun i => dft (-1) (2 ^ b) gx i * ((1 / ((2 ^ b : ℕ) : ℝ) : ℝ) : ℂ)) hXi l,
      dft_mul_const]
    have hdd := dft_dft (-1) (Or.inr rfl) (2 ^ b) hn gx l hl
    norm_num at hdd
    rw [hdd, cscale_eq]
    push_cast
    field_simp
  refine List.ext_getElem ?_ ?_
  · rw [List.length_map, hY, List.length_map, List.length_range, hx]
  · intro i h1 h2
    have hi : i < 2 ^ b := by
      rw [hx] at h2
      exact h2
    rw [(getD_eq_getElem _ i h1).symm, hY, List.map_map, getD_map_range _ _ i hi]
    simp only [Function.comp_apply]
    have h3 := hpt i hi
    rw [hY, getD_map_range _ _ i hi] at h3
    rw [h3]
    exact getD_eq_getElem x i (by rw [hx]; exact hi)

theorem C6_roundtrip_amended_witness :
    ∃ X Y : List ℂ,
      (FFT.makePlan (2 ^ 1) FFTDirection.Forward).run [1, 0] = Except.ok X ∧
      (FFT.makePlan (2 ^ 1) FFTDirection.Inverse).run
        (X.map (fun z => cscale z (1 / ((2 ^ 1 : ℕ) : ℝ)))) = Except.ok Y ∧
      Y.map (fun z => cscale z (((2 ^ 1 : ℕ) : ℝ))) = [1, 0] ∧
      (∀ inp out : List ℂ, inp.length = 2 ^ 1 → out.length = 2 ^ 1 →
        (FFT.makePlan (2 ^ 1) FFTDirection.Inverse).execute inp out =
          Except.ok ((List.range (2 ^ 1)).map (fun k =>
            (((2 : ℕ) ^ 1 : ℂ))⁻¹ * dft 1 (2 ^ 1) (fun i => inp.getD i 0) k))) :=
  C6_roundtrip_amended 1 [1, 0] rfl

theorem getD_eq_getElem' {α : Type} (l : List α) (d : α) (i : ℕ) (h : i < l.length) :
    l.getD i d = l[i] := by
  rw [List.getD_eq_getElem?_getD, List.getElem?_eq_getElem h]
  rfl

theorem getD_map_range' {α : Type} (f : ℕ → α) (d : α) (n i : ℕ) (h : i < n) :
    ((List.range n).map f).getD i d = f i := by
  rw [List.getD_eq_getElem?_getD, List.getElem?_map, List.getElem?_range h]
  rfl

theorem sum_list_map_range {M : Type} [AddCommMonoid M] (f : ℕ → M) (n : ℕ) :
    ((List.range n).map f).sum = ∑ i ∈ Finset.range n, f i := by
  induction n with
  | zero => simp
  | succ m ih =>
    rw [List.range_succ, List.map_append, List.sum_append, Finset.sum_range_succ, ih]
    simp

theorem list_sum_eq_sum_getD {M : Type} [AddCommMonoid M] (l : List M) :
    l.sum = ∑ i ∈ Finset.range l.length, l.getD i 0 := by
  induction l with
  | nil => simp
  | cons a t ih =>
    rw [List.sum_cons, List.length_cons, Finset.sum_range_succ', ih]
    simp [add_comm]

theorem mem_buildPaths (ds : ℝ) (pss : List (List Seg)) (p : List ℂ)
    (hp : p ∈ buildPaths ds pss) : 2 ≤ p.length ∧ 0 < polyLen p := by
  unfold buildPaths at hp
  have h := List.of_mem_filter hp
  simp only [Bool.and_eq_true, decide_eq_true_eq] at h
  exact h

theorem buildPaths_totalLen_pos (ds : ℝ) (pss : List (List Seg))
    (h : buildPaths ds pss ≠ []) : 0 < totalLenOf (buildPaths ds pss) := by
  unfold totalLenOf
  apply List.sum_pos
  · intro x hx
    obtain ⟨p, hp, rfl⟩ := List.mem_map.mp hx
    exact (mem_buildPaths ds pss p hp).2
  · simpa using h

/-- C7: for every positive `targetCount`, an unusable input (null image, no
usable segments, nonpositive estimated total length, or no usable polyline)
makes `processNSVGimage` return `targetCount` copies of the origin; and the
remaining non-origin fallback (the front-vertex fill when the recomputed
total length is nonpositive) is unreachable, because a nonempty `paths`
always has positive total length. -/
theorem C7_origin_fallback (img : Option (List (List ℂ))) (cnt : ℕ)
    (sortP sortLd sortLa : List (ℝ × ℕ) → List (ℝ × ℕ)) (hcnt : 0 < cnt)
    (hbad : img = none ∨ ∃ sp, img = some sp ∧
      ((pathSegsOf sp).isEmpty = true ∨ totalLenEstimateOf sp ≤ 0 ∨
        (buildPaths (dsOf sp cnt) (pathSegsOf sp)).isEmpty = true)) :
    processNSVGimage img cnt sortP sortLd sortLa = List.replicate cnt 0 ∧
      ∀ ds pss, buildPaths ds pss ≠ [] → 0 < totalLenOf (buildPaths ds pss) := by
  refine ⟨?_, fun ds pss h => buildPaths_totalLen_pos ds pss h⟩
  unfold processNSVGimage
  rw [if_neg (by omega : ¬ cnt = 0)]
  rcases hbad with rfl | ⟨sp, rfl, hsp⟩
  · rfl
  · dsimp only
    by_cases h1 : (pathSegsOf sp).isEmpty = true ∨ totalLenEstimateOf sp ≤ 0
    · rw [if_pos h1]
    · rw [if_neg h1]
      have h3 : (buildPaths (dsOf sp cnt) (pathSegsOf sp)).isEmpty = true := by
        rcases hsp with h | h | h
        · exact absurd (Or.inl h) h1
        · exact absurd (Or.inr h) h1
        · exact h
      rw [if_pos h3]

theorem C7_origin_fallback_witness :
    processNSVGimage none 7 id id id = List.replicate 7 0 ∧
      ∀ ds pss, buildPaths ds pss ≠ [] → 0 < totalLenOf (buildPaths ds pss) :=
  C7_origin_fallback none 7 id id id (by norm_num) (Or.inl rfl)

theorem polyLen_nonneg (pts : List ℂ) : 0 ≤ polyLen pts := by
  unfold polyLen cumAt
  exact Finset.sum_nonneg fun j _ => Real.sqrt_nonneg _

theorem sum_foldl_inc (P : ℕ) (l : List (ℝ × ℕ)) (c : ℕ → ℕ)
    (hl : ∀ p ∈ l, p.2 < P) :
    ∑ i ∈ Finset.range P, (l.foldl (fun acc part => incIdx acc part.2) c) i
      = (∑ i ∈ Finset.range P, c i) + l.length := by
  induction l generalizing c with
  | nil => simp
  | cons hd tl ih =>
    rw [List.foldl_cons, List.length_cons,
      ih (incIdx c hd.2) (fun p hp => hl p (List.mem_cons_of_mem hd hp))]
    have hj : hd.2 ∈ Finset.range P :=
      Finset.mem_range.mpr (hl hd (List.mem_cons_self hd tl))
    have hsum : ∑ i ∈ Finset.range P, incIdx c hd.2 i
        = (∑ i ∈ Finset.range P, c i) + 1 := by
      unfold incIdx
      rw [Finset.sum_update_of_mem hj, Finset.sum_eq_sum_diff_singleton_add hj c]
      omega
    omega

theorem getD_map_polyLen (paths : List (List ℂ)) (i : ℕ) (hi : i < paths.length) :
    (paths.map polyLen).getD i 0 = polyLen (paths.getD i []) := by
  rw [getD_eq_getElem' _ _ i (by rw [List.length_map]; exact hi), List.getElem_map,
    getD_eq_getElem' paths [] i hi]

theorem finalCountOf_eq (cnt : ℕ) (sortP : List (ℝ × ℕ) → List (ℝ × ℕ))
    (paths : List (List ℂ)) (hne : paths ≠ []) (htot : 0 < totalLenOf paths)
    (hsort : ∀ l, (sortP l).Perm l) :
    finalCountOf cnt sortP paths = cnt := by
  have hP0 : 0 < paths.length := List.length_pos.mpr hne
  have hex_nonneg : ∀ i, 0 ≤ exactI cnt paths i := by
    intro i
    unfold exactI
    exact mul_nonneg (Nat.cast_nonneg cnt)
      (div_nonneg (polyLen_nonneg _) (le_of_lt htot))
  have hsum_len : ∑ i ∈ Finset.range paths.length, polyLen (paths.getD i [])
      = totalLenOf paths := by
    unfold totalLenOf
    rw [list_sum_eq_sum_getD (paths.map polyLen), List.length_map]
    exact Finset.sum_congr rfl fun i hi =>
      (getD_map_polyLen paths i (Finset.mem_range.mp hi)).symm
  have hsum_exact : ∑ i ∈ Finset.range paths.length, exactI cnt paths i = cnt := by
    unfold exactI
    rw [← Finset.mul_sum, ← Finset.sum_div, hsum_len, div_self (ne_of_gt htot),
      mul_one]
  have hbase_le : ((baseSumOf cnt paths : ℕ) : ℝ) ≤ (cnt : ℝ) := by
    unfold baseSumOf
    push_cast
    calc ∑ i ∈ Finset.range paths.length, ((baseI cnt paths i : ℕ) : ℝ)
        ≤ ∑ i ∈ Finset.range paths.length, exactI cnt paths i :=
          Finset.sum_le_sum fun i _ => Nat.floor_le (hex_nonneg i)
      _ = cnt := hsum_exact
  have hbase_leN : baseSumOf cnt paths ≤ cnt := by exact_mod_cast hbase_le
  have hleft_lt : leftoverOf cnt paths < paths.length := by
    have h1 : ((leftoverOf cnt paths : ℕ) : ℝ)
        = ∑ i ∈ Finset.range paths.length,
            (exactI cnt paths i - (baseI cnt paths i : ℝ)) := by
      rw [Finset.sum_sub_distrib, hsum_exact]
      unfold leftoverOf
      rw [Nat.cast_sub hbase_leN]
      unfold baseSumOf
      push_cast
      rfl
    have h2 : ((leftoverOf cnt paths : ℕ) : ℝ) < paths.length := by
      rw [h1]
      calc ∑ i ∈ Finset.range paths.length,
            (exactI cnt paths i - (baseI cnt paths i : ℝ))
          < ∑ _i ∈ Finset.range paths.length, (1 : ℝ) :=
            Finset.sum_lt_sum_of_nonempty (Finset.nonempty_range_iff.mpr (by omega))
              (fun i _ => by
                have := Nat.lt_floor_add_one (exactI cnt paths i)
                unfold baseI
                linarith)
        _ = paths.length := by simp
    exact_mod_cast h2
  have hmem : ∀ p ∈ (sortP (fracPartsOf cnt paths)).take (leftoverOf cnt paths),
      p.2 < paths.length := by
    intro p hp
    have hp2 : p ∈ fracPartsOf cnt paths :=
      ((hsort _).mem_iff).mp (List.mem_of_mem_take hp)
    unfold fracPartsOf at hp2
    obtain ⟨i, hi, rfl⟩ := List.mem_map.mp hp2
    simpa using List.mem_range.mp hi
  have hlen_take : ((sortP (fracPartsOf cnt paths)).take (leftoverOf cnt paths)).length
      = leftoverOf cnt paths := by
    rw [List.length_take, (hsort _).length_eq]
    unfold fracPartsOf
    rw [List.length_map, List.length_range]
    omega
  unfold finalCountOf countsAfterLeftover
  rw [sum_foldl_inc paths.length _ _ hmem, hlen_take]
  have hbs : ∑ i ∈ Finset.range paths.length, baseI cnt paths i = baseSumOf cnt paths :=
    rfl
  rw [hbs]
  unfold leftoverOf
  omega

theorem countsOf_eq_after (cnt : ℕ)
    (sortP sortLd sortLa : List (ℝ × ℕ) → List (ℝ × ℕ))
    (paths : List (List ℂ)) (hfc : finalCountOf cnt sortP paths = cnt) :
    countsOf cnt sortP sortLd sortLa paths = countsAfterLeftover cnt sortP paths := by
  unfold countsOf
  rw [if_neg (by omega), if_neg (by omega)]

theorem samplePath_length (pts : List ℂ) (n : ℕ) : (samplePath pts n).length = n := by
  unfold samplePath
  rw [List.length_map, List.length_range]

theorem resampleAll_length (cnt : ℕ)
    (sortP sortLd sortLa : List (ℝ × ℕ) → List (ℝ × ℕ))
    (paths : List (List ℂ)) :
    (resampleAll cnt sortP sortLd sortLa paths).length
      = ∑ i ∈ Finset.range paths.length, countsOf cnt sortP sortLd sortLa paths i := by
  unfold resampleAll
  rw [List.length_flatten, List.map_map, sum_list_map_range]
  refine Finset.sum_congr rfl fun i _ => ?_
  by_cases h : countsOf cnt sortP sortLd sortLa paths i = 0
  · simp [h]
  · simp only [Function.comp_apply, if_neg h, samplePath_length]

/-- C1: for every parsed image (including a null image and fully degenerate
geometry) and every `targetCount`, the resampler returns exactly `targetCount`
points, and `targetCount = 0` returns the empty sequence.  (`sortP`, `sortLd`,
`sortLa` are the results of the unstable `std::ranges::sort` calls; only
`sortP` being a permutation is needed.) -/
theorem C1_resampler_length (img : Option (List (List ℂ))) (cnt : ℕ)
    (sortP sortLd sortLa : List (ℝ × ℕ) → List (ℝ × ℕ))
    (hsortP : ∀ l, (sortP l).Perm l) :
    (processNSVGimage img cnt sortP sortLd sortLa).length = cnt ∧
      processNSVGimage img 0 sortP sortLd sortLa = [] := by
  constructor
  · by_cases hc : cnt = 0
    · subst hc
      unfold processNSVGimage
      rw [if_pos rfl]
      rfl
    unfold processNSVGimage
    rw [if_neg hc]
    match img with
    | none => simp
    | some sp =>
      dsimp only
      by_cases h1 : (pathSegsOf sp).isEmpty = true ∨ totalLenEstimateOf sp ≤ 0
      · rw [if_pos h1]
        simp
      rw [if_neg h1]
      by_cases h2 : (buildPaths (dsOf sp cnt) (pathSegsOf sp)).isEmpty = true
      · rw [if_pos h2]
        simp
      rw [if_neg h2]
      by_cases h3 : totalLenOf (buildPaths (dsOf sp cnt) (pathSegsOf sp)) ≤ 0
      · rw [if_pos h3]
        simp
      rw [if_neg h3]
      have hne : buildPaths (dsOf sp cnt) (pathSegsOf sp) ≠ [] := by
        intro h
        rw [h] at h2
        exact h2 rfl
      have htot : 0 < totalLenOf (buildPaths (dsOf sp cnt) (pathSegsOf sp)) :=
        not_le.mp h3
      have hfc := finalCountOf_eq cnt sortP _ hne htot hsortP
      rw [resampleAll_length, countsOf_eq_after cnt sortP sortLd sortLa _ hfc]
      exact hfc
  · unfold processNSVGimage
    rw [if_pos rfl]

theorem C1_resampler_length_witness :
    (processNSVGimage none 10 id id id).length = 10 ∧
      processNSVGimage none 0 id id id = [] :=
  C1_resampler_length none 10 id id id (fun l => List.Perm.refl l)

theorem findUpper_le_length (l : List ℝ) (s : ℝ) : findUpper l s ≤ l.length := by
  induction l with
  | nil => simp [findUpper]
  | cons c rest ih =>
    unfold findUpper
    by_cases h : s < c
    · rw [if_pos h]
      simp
    · rw [if_neg h]
      simp only [List.length_cons]
      omega

theorem findUpper_spec_lt (l : List ℝ) (s : ℝ) (m : ℕ) (hm : m < findUpper l s) :
    l.getD m 0 ≤ s := by
  induction l generalizing m with
  | nil => simp [findUpper] at hm
  | cons c rest ih =>
    unfold findUpper at hm
    by_cases h : s < c
    · rw [if_pos h] at hm
      omega
    · rw [if_neg h] at hm
      cases m with
      | zero => exact not_lt.mp h
      | succ m' => exact ih m' (by omega)

theorem findUpper_spec_ge (l : List ℝ) (s : ℝ) (h : findUpper l s < l.length) :
    s < l.getD (findUpper l s) 0 := by
  induction l with
  | nil => simp at h
  | cons c rest ih =>
    by_cases hlt : s < c
    · have h0 : findUpper (c :: rest) s = 0 := by
        unfold findUpper
        rw [if_pos hlt]
      rw [h0]
      exact hlt
    · have he : findUpper (c :: rest) s = findUpper rest s + 1 := by
        simp only [findUpper, if_neg hlt]
      rw [he] at h
      simp only [List.length_cons] at h
      rw [he]
      exact ih (by omega)

theorem cumList_length (pts : List ℂ) : (cumList pts).length = pts.length := by
  unfold cumList
  rw [List.length_map, List.length_range]

theorem cumList_getD (pts : List ℂ) (i : ℕ) (h : i < pts.length) :
    (cumList pts).getD i 0 = cumAt pts i := by
  unfold cumList
  exact getD_map_range' (cumAt pts) 0 pts.length i h

theorem cumAt_zero (pts : List ℂ) : cumAt pts 0 = 0 := by
  simp [cumAt]

/-- C9: on a kept polyline (at least two vertices, positive length) allocated
a count `c > 0`, the `j`-th sample (`j < c`) is taken at arc-length position
`s = offset + j·step` with `step = length/c` and `offset = step/2`; `s` lies
strictly below the polyline length, so the `nextafter` clamp leaves it
unchanged; the upper-bound binary search yields an index `idx1` that the two
index clamps leave unchanged, with `cum[idx1-1] ≤ s < cum[idx1]`; and the
sample is the linear interpolation between the two bracketing vertices with
denominator `max(cum[idx1] - cum[idx1-1], 1e-12)`. -/
theorem C9_subpath_sampling (pts : List ℂ) (c j : ℕ) (s : ℝ)
    (h2 : 2 ≤ pts.length) (hlen : 0 < polyLen pts) (hc : 0 < c) (hj : j < c)
    (hs : s = polyLen pts / (c : ℝ) / 2 + (j : ℝ) * (polyLen pts / (c : ℝ))) :
    s < polyLen pts ∧ clampS pts s = s ∧
      1 ≤ idxUpper pts s ∧ idxUpper pts s < pts.length ∧
      idxUpper pts s = findUpper (cumList pts) s ∧
      cumAt pts (idxUpper pts s - 1) ≤ s ∧ s < cumAt pts (idxUpper pts s) ∧
      (samplePath pts c).getD j 0 =
        lerp (pts.getD (idxUpper pts s - 1) 0) (pts.getD (idxUpper pts s) 0)
          ((s - cumAt pts (idxUpper pts s - 1)) /
            max (cumAt pts (idxUpper pts s) - cumAt pts (idxUpper pts s - 1)) 1e-12) := by
  have hc' : (0 : ℝ) < (c : ℝ) := by exact_mod_cast hc
  have hs_pos : 0 < s := by
    rw [hs]
    have h0 : 0 < polyLen pts / (c : ℝ) / 2 := by positivity
    have h1 : 0 ≤ (j : ℝ) * (polyLen pts / (c : ℝ)) := by positivity
    linarith
  have hs_lt : s < polyLen pts := by
    rw [hs]
    have hkey : polyLen pts / (c : ℝ) / 2 + (j : ℝ) * (polyLen pts / (c : ℝ))
        = polyLen pts * ((2 * (j : ℝ) + 1) / (2 * (c : ℝ))) := by
      field_simp
      ring
    rw [hkey]
    have hjc : (j : ℝ) + 1 ≤ (c : ℝ) := by exact_mod_cast Nat.succ_le_of_lt hj
    have hfrac : (2 * (j : ℝ) + 1) / (2 * (c : ℝ)) < 1 := by
      rw [div_lt_one (by positivity)]
      linarith
    calc polyLen pts * ((2 * (j : ℝ) + 1) / (2 * (c : ℝ)))
        < polyLen pts * 1 := mul_lt_mul_of_pos_left hfrac hlen
      _ = polyLen pts := mul_one _
  have hclamp : clampS pts s = s := by
    unfold clampS
    rw [if_neg (not_le.mpr hs_lt)]
  set r := findUpper (cumList pts) s with hr
  have hcl_len : (cumList pts).length = pts.length := cumList_length pts
  have hr_le : r ≤ pts.length := by
    have := findUpper_le_length (cumList pts) s
    omega
  have hr_pos : 1 ≤ r := by
    by_contra hcon
    have hr0 : r = 0 := by omega
    have hge := findUpper_spec_ge (cumList pts) s (by omega)
    rw [← hr, hr0, cumList_getD pts 0 (by omega), cumAt_zero] at hge
    linarith
  have hr_lt : r < pts.length := by
    by_contra hcon
    have hre : r = pts.length := by omega
    have hle := findUpper_spec_lt (cumList pts) s (pts.length - 1) (by omega)
    rw [cumList_getD pts _ (by omega)] at hle
    have hple : polyLen pts ≤ s := hle
    linarith
  have hidx : idxUpper pts s = r := by
    unfold idxUpper idxClamp
    rw [← hr, hcl_len]
    simp only [if_neg (show ¬ r = 0 by omega)]
    rw [if_neg (by omega : ¬ r ≥ pts.length)]
  have hbrack_lo : cumAt pts (r - 1) ≤ s := by
    have hle := findUpper_spec_lt (cumList pts) s (r - 1) (by omega)
    rwa [cumList_getD pts _ (by omega)] at hle
  have hbrack_hi : s < cumAt pts r := by
    have hge := findUpper_spec_ge (cumList pts) s (by omega)
    rwa [← hr, cumList_getD pts _ (by omega)] at hge
  have hsample : (samplePath pts c).getD j 0
      = sampleAt pts (clampS pts (polyLen pts / (c : ℝ) / 2
          + (j : ℝ) * (polyLen pts / (c : ℝ)))) := by
    unfold samplePath
    exact getD_map_range _ c j hj
  rw [← hs, hclamp] at hsample
  unfold sampleAt at hsample
  rw [hidx] at hsample
  rw [cumList_getD pts r (by omega), cumList_getD pts (r - 1) (by omega)] at hsample
  rw [hidx]
  exact ⟨hs_lt, hclamp, hr_pos, hr_lt, hr, hbrack_lo, hbrack_hi, hsample⟩

theorem polyLen_pair : polyLen [(0 : ℂ), 1] = 1 := by
  unfold polyLen cumAt
  norm_num [vlen, length_sq, csub, Finset.sum_range_one]

theorem C9_subpath_sampling_witness :
    (1 / 2 : ℝ) < polyLen [(0 : ℂ), 1] ∧ clampS [(0 : ℂ), 1] (1 / 2) = 1 / 2 ∧
      1 ≤ idxUpper [(0 : ℂ), 1] (1 / 2) ∧
      idxUpper [(0 : ℂ), 1] (1 / 2) < ([(0 : ℂ), 1] : List ℂ).length ∧
      idxUpper [(0 : ℂ), 1] (1 / 2) = findUpper (cumList [(0 : ℂ), 1]) (1 / 2) ∧
      cumAt [(0 : ℂ), 1] (idxUpper [(0 : ℂ), 1] (1 / 2) - 1) ≤ 1 / 2 ∧
      (1 / 2 : ℝ) < cumAt [(0 : ℂ), 1] (idxUpper [(0 : ℂ), 1] (1 / 2)) ∧
      (samplePath [(0 : ℂ), 1] 1).getD 0 0 =
        lerp (([(0 : ℂ), 1] : List ℂ).getD (idxUpper [(0 : ℂ), 1] (1 / 2) - 1) 0)
          (([(0 : ℂ), 1] : List ℂ).getD (idxUpper [(0 : ℂ), 1] (1 / 2)) 0)
          ((1 / 2 - cumAt [(0 : ℂ), 1] (idxUpper [(0 : ℂ), 1] (1 / 2) - 1)) /
            max (cumAt [(0 : ℂ), 1] (idxUpper [(0 : ℂ), 1] (1 / 2))
                  - cumAt [(0 : ℂ), 1] (idxUpper [(0 : ℂ), 1] (1 / 2) - 1)) 1e-12) :=
  C9_subpath_sampling [(0 : ℂ), 1] 1 0 (1 / 2) (by norm_num)
    (by rw [polyLen_pair]; norm_num) (by norm_num) (by norm_num)
    (by rw [polyLen_pair]; norm_num)
